import Mathlib

set_option linter.unusedSectionVars false

/-!
Dense matrix multiplication kernels (`package matmul`).

A shallow embedding of `matmul.go`: the dispatcher `MatMul`, the reference
algorithm `MatMulNaive`, the tiled algorithm `MatMulBlocked` and the helper
`min`.

* Slices are lists and an index expression `xs[e]` is the fallible
  `load`/`store`, which fails exactly when Go's bounds check does (`e < 0` or
  `e >= len(xs)`).
* Go's `int` is embedded twice.  `MatMulNaive` and `MatMulBlocked` read it as
  `Int` (mathematical integers): they are the algorithms in exact integer
  arithmetic, used for the statements that are about non-negative dimensions
  and buffers of sufficient length.  `MatMul`, `MatMulNaive64` and
  `MatMulBlocked64` read it as a 64-bit two's-complement integer: every
  product, every index sum and every `+= blockSize` wraps modulo `2^64`
  (`wrap64`).  The theorems `MatMulNaive64_eq_exact` and
  `MatMulBlocked64_eq_exact` show that the two readings are the same function
  wherever no product and no tile counter overflows.
* The three slices `a`, `b`, `c` are the fields of `Mem`; they are assumed not to
  alias each other.  `Mem.trace` is a ghost field recording, in program order,
  every slice access that succeeded and every execution of the update statement
  of `MatMulBlocked`.
* A call ends in an `Outcome`: normal return, a panic (with the memory at the
  moment of the panic) or exhaustion of the iteration budget `fuel`.  Every
  `for` statement is the combinator `forLoop` (or `forLoop64`); each of its runs
  may iterate at most `fuel` times.
* The element type `α` only needs `0`, `+` and `*`; the theorems about exact
  arithmetic take `α` to be a commutative semiring.
-/

namespace Matmul

/-- The three slice parameters of every entry point. -/
inductive Buf where
  | A
  | B
  | C
deriving DecidableEq, Repr

/-- Ghost events: a successful slice read, a successful slice write, and one
execution of `c[cRowStart+j] += aik * b[bRowStart+j]` at loop indices `i kk j`. -/
inductive Event where
  | read (buf : Buf) (idx : Int)
  | write (buf : Buf) (idx : Int)
  | update (i kk j : Int)
deriving DecidableEq, Repr

/-- The memory a call works on: the slices `a`, `b`, `c` and the ghost trace. -/
structure Mem (α : Type) where
  a : List α
  b : List α
  c : List α
  trace : List Event
deriving DecidableEq, Repr

/-- The two ways a call can panic: the explicit
`panic("matmul: insufficient buffer size")` and Go's runtime bounds check. -/
inductive PanicKind where
  | insufficientBuffer
  | indexOutOfRange
deriving DecidableEq, Repr

/-- Result of running a piece of code from a state of type `β`. -/
inductive Outcome (β : Type) where
  | ok (s : β)
  | panic (e : PanicKind) (s : β)
  | timeout (s : β)
deriving DecidableEq, Repr

variable {α : Type}

/-- Go's `xs[idx]` as an rvalue: `none` when the bounds check fails. -/
def load (xs : List α) (idx : Int) : Option α :=
  if 0 ≤ idx then xs[idx.toNat]? else none

/-- Go's `xs[idx] = v`: `none` when the bounds check fails. -/
def store (xs : List α) (idx : Int) (v : α) : Option (List α) :=
  if 0 ≤ idx ∧ idx < (xs.length : Int) then some (xs.set idx.toNat v) else none

/-- Append ghost events to the trace. -/
def Mem.log (s : Mem α) (es : List Event) : Mem α :=
  { s with trace := s.trace ++ es }

/-- The statement `for i := lo; i < hi; i += step { body }`, run for at most
`fuel` iterations, with the counter a mathematical integer (`i + step` is
exact; see `forLoop64` for the wrapping counter).  A panic or timeout of the
body ends the loop. -/
def forLoop {β : Type} (fuel : Nat) (i hi step : Int) (body : Int → β → Outcome β)
    (s : β) : Outcome β :=
  match fuel with
  | 0 => if i < hi then Outcome.timeout s else Outcome.ok s
  | fuel + 1 =>
    if i < hi then
      match body i s with
      | Outcome.ok s1 => forLoop fuel (i + step) hi step body s1
      | r => r
    else Outcome.ok s

/-- The function `min` of matmul.go, lines 67-72. -/
def min (a b : Int) : Int :=
  if a < b then a else b

/-- The check `len(a) < m*k || len(b) < k*n || len(c) < m*n` that guards every
entry point, with the products exact (see `insufficient64` for the products as
a 64-bit target computes them; the two agree when no product overflows). -/
def insufficient (s : Mem α) (m k n : Int) : Prop :=
  (s.a.length : Int) < m * k ∨ (s.b.length : Int) < k * n ∨ (s.c.length : Int) < m * n

instance (s : Mem α) (m k n : Int) : Decidable (insufficient s m k n) := by
  unfold insufficient; infer_instance

section Code

variable [Zero α] [Add α] [Mul α]

/-- The statement `c[i] = 0` of the zeroing loops (lines 21 and 42). -/
def zeroStmt (i : Int) (s : Mem α) : Outcome (Mem α) :=
  match store s.c i 0 with
  | some c1 => Outcome.ok { s with c := c1, trace := s.trace ++ [Event.write Buf.C i] }
  | none => Outcome.panic PanicKind.indexOutOfRange s

/-- The loop `for i := 0; i < m*n; i++ { c[i] = 0 }` (lines 20-22 and 41-43). -/
def zeroLoop (fuel : Nat) (m n : Int) (s : Mem α) : Outcome (Mem α) :=
  forLoop fuel 0 (m * n) 1 zeroStmt s

/-- The statement `sum += a[i*k+kk] * b[kk*n+j]` (line 28); the loop state is the
memory together with the local `sum`. -/
def naiveStmt (k n i j kk : Int) (st : Mem α × α) : Outcome (Mem α × α) :=
  match load st.1.a (i * k + kk), load st.1.b (kk * n + j) with
  | some x, some y =>
    Outcome.ok (st.1.log [Event.read Buf.A (i * k + kk), Event.read Buf.B (kk * n + j)],
      st.2 + x * y)
  | _, _ => Outcome.panic PanicKind.indexOutOfRange st

/-- The body of the `j` loop of `MatMulNaive` (lines 26-30): `sum := 0.0`, the
`kk` loop, then `c[i*n+j] = sum`. -/
def naiveCell (fuel : Nat) (k n i j : Int) (s : Mem α) : Outcome (Mem α) :=
  match forLoop fuel 0 k 1 (naiveStmt k n i j) (s, 0) with
  | Outcome.ok st =>
    match store st.1.c (i * n + j) st.2 with
    | some c1 =>
      Outcome.ok { st.1 with c := c1, trace := st.1.trace ++ [Event.write Buf.C (i * n + j)] }
    | none => Outcome.panic PanicKind.indexOutOfRange st.1
  | Outcome.panic e st => Outcome.panic e st.1
  | Outcome.timeout st => Outcome.timeout st.1

/-- The body of the `i` loop of `MatMulNaive`: the `j` loop (lines 25-31). -/
def naiveRow (fuel : Nat) (k n i : Int) (s : Mem α) : Outcome (Mem α) :=
  forLoop fuel 0 n 1 (naiveCell fuel k n i) s

/-- The function `MatMulNaive`, lines 15-33, in exact integer arithmetic. -/
def MatMulNaive (fuel : Nat) (s : Mem α) (m k n : Int) : Outcome (Mem α) :=
  if insufficient s m k n then Outcome.panic PanicKind.insufficientBuffer s
  else
    match zeroLoop fuel m n s with
    | Outcome.ok s1 => forLoop fuel 0 m 1 (naiveRow fuel k n) s1
    | r => r

/-- The statement `c[cRowStart+j] += aik * b[bRowStart+j]` (line 58). -/
def updateStmt (aik : α) (bRowStart cRowStart i kk j : Int) (s : Mem α) : Outcome (Mem α) :=
  match load s.b (bRowStart + j), load s.c (cRowStart + j) with
  | some y, some z =>
    Outcome.ok { s with
      c := s.c.set (cRowStart + j).toNat (z + aik * y),
      trace := s.trace ++ [Event.read Buf.B (bRowStart + j), Event.read Buf.C (cRowStart + j),
        Event.write Buf.C (cRowStart + j), Event.update i kk j] }
  | _, _ => Outcome.panic PanicKind.indexOutOfRange s

/-- The body of the `kk` loop of `MatMulBlocked` (lines 54-59): load `aik`, set
`bRowStart` and `cRowStart`, run the `j` loop. -/
def blockedKK (fuel : Nat) (k n j0 jMax i kk : Int) (s : Mem α) : Outcome (Mem α) :=
  match load s.a (i * k + kk) with
  | some aik =>
    let bRowStart := kk * n
    let cRowStart := i * n
    forLoop fuel j0 jMax 1 (updateStmt aik bRowStart cRowStart i kk)
      (s.log [Event.read Buf.A (i * k + kk)])
  | none => Outcome.panic PanicKind.indexOutOfRange s

/-- The body of the `i` loop of `MatMulBlocked`: the `kk` loop (lines 53-60). -/
def blockedI (fuel : Nat) (k n j0 jMax k0 kMax i : Int) (s : Mem α) : Outcome (Mem α) :=
  forLoop fuel k0 kMax 1 (blockedKK fuel k n j0 jMax i) s

/-- The body of the `k0` loop of `MatMulBlocked` (lines 48-61): clip the tile
with `min`, then run the `i` loop over it. -/
def blockedTile (fuel : Nat) (m k n blockSize i0 j0 k0 : Int) (s : Mem α) : Outcome (Mem α) :=
  let iMax := min (i0 + blockSize) m
  let jMax := min (j0 + blockSize) n
  let kMax := min (k0 + blockSize) k
  forLoop fuel i0 iMax 1 (blockedI fuel k n j0 jMax k0 kMax) s

/-- The body of the `j0` loop of `MatMulBlocked`: the `k0` loop (lines 47-62). -/
def blockedJ0 (fuel : Nat) (m k n blockSize i0 j0 : Int) (s : Mem α) : Outcome (Mem α) :=
  forLoop fuel 0 k blockSize (blockedTile fuel m k n blockSize i0 j0) s

/-- The body of the `i0` loop of `MatMulBlocked`: the `j0` loop (lines 46-63). -/
def blockedI0 (fuel : Nat) (m k n blockSize i0 : Int) (s : Mem α) : Outcome (Mem α) :=
  forLoop fuel 0 n blockSize (blockedJ0 fuel m k n blockSize i0) s

/-- The function `MatMulBlocked`, lines 36-65, in exact integer arithmetic. -/
def MatMulBlocked (fuel : Nat) (s : Mem α) (m k n blockSize : Int) : Outcome (Mem α) :=
  if insufficient s m k n then Outcome.panic PanicKind.insufficientBuffer s
  else
    match zeroLoop fuel m n s with
    | Outcome.ok s1 => forLoop fuel 0 m blockSize (blockedI0 fuel m k n blockSize) s1
    | r => r

end Code

/-! ## The program under 64-bit machine arithmetic -/

section Code64

variable [Zero α] [Add α] [Mul α]

/-- Go's `int` on a 64-bit target: the two's-complement value of `x` modulo
`2^64`, in `[-2^63, 2^63)`. -/
def wrap64 (x : Int) : Int :=
  (x + 9223372036854775808) % 18446744073709551616 - 9223372036854775808

/-- The size check of lines 16-18 with the products `m*k`, `k*n`, `m*n`
wrapping modulo `2^64`. -/
def insufficient64 (s : Mem α) (m k n : Int) : Prop :=
  (s.a.length : Int) < wrap64 (m * k) ∨ (s.b.length : Int) < wrap64 (k * n) ∨
    (s.c.length : Int) < wrap64 (m * n)

instance (s : Mem α) (m k n : Int) : Decidable (insufficient64 s m k n) := by
  unfold insufficient64; infer_instance

/-- A value that fits Go's `int` on a 64-bit target. -/
def IsInt64 (x : Int) : Prop :=
  -9223372036854775808 ≤ x ∧ x < 9223372036854775808

instance (x : Int) : Decidable (IsInt64 x) := by
  unfold IsInt64; infer_instance

/-- The statement `for i := lo; i < hi; i += step { body }` with a 64-bit
counter: `i += step` wraps modulo `2^64`. -/
def forLoop64 {β : Type} (fuel : Nat) (i hi step : Int) (body : Int → β → Outcome β)
    (s : β) : Outcome β :=
  match fuel with
  | 0 => if i < hi then Outcome.timeout s else Outcome.ok s
  | fuel + 1 =>
    if i < hi then
      match body i s with
      | Outcome.ok s1 => forLoop64 fuel (wrap64 (i + step)) hi step body s1
      | r => r
    else Outcome.ok s

/-- The dispatcher `MatMul`, lines 6-12, with the size check evaluated in 64-bit
arithmetic.  The kernel `matmulAVX2` is not part of the analysed source and is
a parameter. -/
def MatMul (matmulAVX2 : Mem α → Int → Int → Int → Outcome (Mem α))
    (s : Mem α) (m k n : Int) : Outcome (Mem α) :=
  if insufficient64 s m k n then Outcome.panic PanicKind.insufficientBuffer s
  else matmulAVX2 s m k n

/-- Line 28 with the index expressions `i*k+kk` and `kk*n+j` wrapping. -/
def naiveStmt64 (k n i j kk : Int) (st : Mem α × α) : Outcome (Mem α × α) :=
  match load st.1.a (wrap64 (wrap64 (i * k) + kk)), load st.1.b (wrap64 (wrap64 (kk * n) + j)) with
  | some x, some y =>
    Outcome.ok (st.1.log [Event.read Buf.A (wrap64 (wrap64 (i * k) + kk)),
      Event.read Buf.B (wrap64 (wrap64 (kk * n) + j))], st.2 + x * y)
  | _, _ => Outcome.panic PanicKind.indexOutOfRange st

/-- Lines 26-30 with the index expression `i*n+j` wrapping. -/
def naiveCell64 (fuel : Nat) (k n i j : Int) (s : Mem α) : Outcome (Mem α) :=
  match forLoop fuel 0 k 1 (naiveStmt64 k n i j) (s, 0) with
  | Outcome.ok st =>
    match store st.1.c (wrap64 (wrap64 (i * n) + j)) st.2 with
    | some c1 =>
      Outcome.ok { st.1 with
        c := c1, trace := st.1.trace ++ [Event.write Buf.C (wrap64 (wrap64 (i * n) + j))] }
    | none => Outcome.panic PanicKind.indexOutOfRange st.1
  | Outcome.panic e st => Outcome.panic e st.1
  | Outcome.timeout st => Outcome.timeout st.1

/-- Lines 25-31 under machine arithmetic. -/
def naiveRow64 (fuel : Nat) (k n i : Int) (s : Mem α) : Outcome (Mem α) :=
  forLoop fuel 0 n 1 (naiveCell64 fuel k n i) s

/-- The function `MatMulNaive`, lines 15-33, with `int` a 64-bit two's-complement
integer: every product and every index sum wraps.  The loop counters are
incremented without wrapping because a counter below its limit is below
`2^63 - 1`, so `i++`, `j++` and `kk++` cannot overflow; `m`, `k`, `n` are meant
to be in `[-2^63, 2^63)`. -/
def MatMulNaive64 (fuel : Nat) (s : Mem α) (m k n : Int) : Outcome (Mem α) :=
  if insufficient64 s m k n then Outcome.panic PanicKind.insufficientBuffer s
  else
    match forLoop fuel 0 (wrap64 (m * n)) 1 zeroStmt s with
    | Outcome.ok s1 => forLoop fuel 0 m 1 (naiveRow64 fuel k n) s1
    | r => r

/-- Line 58 with the index sums `cRowStart+j` and `bRowStart+j` wrapping. -/
def updateStmt64 (aik : α) (bRowStart cRowStart i kk j : Int) (s : Mem α) : Outcome (Mem α) :=
  match load s.b (wrap64 (bRowStart + j)), load s.c (wrap64 (cRowStart + j)) with
  | some y, some z =>
    Outcome.ok { s with
      c := s.c.set (wrap64 (cRowStart + j)).toNat (z + aik * y),
      trace := s.trace ++ [Event.read Buf.B (wrap64 (bRowStart + j)),
        Event.read Buf.C (wrap64 (cRowStart + j)),
        Event.write Buf.C (wrap64 (cRowStart + j)), Event.update i kk j] }
  | _, _ => Outcome.panic PanicKind.indexOutOfRange s

/-- Lines 54-59 with `i*k+kk`, `kk*n` and `i*n` wrapping. -/
def blockedKK64 (fuel : Nat) (k n j0 jMax i kk : Int) (s : Mem α) : Outcome (Mem α) :=
  match load s.a (wrap64 (wrap64 (i * k) + kk)) with
  | some aik =>
    let bRowStart := wrap64 (kk * n)
    let cRowStart := wrap64 (i * n)
    forLoop fuel j0 jMax 1 (updateStmt64 aik bRowStart cRowStart i kk)
      (s.log [Event.read Buf.A (wrap64 (wrap64 (i * k) + kk))])
  | none => Outcome.panic PanicKind.indexOutOfRange s

/-- Lines 53-60 under machine arithmetic. -/
def blockedI64 (fuel : Nat) (k n j0 jMax k0 kMax i : Int) (s : Mem α) : Outcome (Mem α) :=
  forLoop fuel k0 kMax 1 (blockedKK64 fuel k n j0 jMax i) s

/-- Lines 48-61 with the sums `i0+blockSize`, `j0+blockSize`, `k0+blockSize`
wrapping before `min` clips them. -/
def blockedTile64 (fuel : Nat) (m k n blockSize i0 j0 k0 : Int) (s : Mem α) :
    Outcome (Mem α) :=
  let iMax := min (wrap64 (i0 + blockSize)) m
  let jMax := min (wrap64 (j0 + blockSize)) n
  let kMax := min (wrap64 (k0 + blockSize)) k
  forLoop fuel i0 iMax 1 (blockedI64 fuel k n j0 jMax k0 kMax) s

/-- Lines 47-62: the `k0` loop, whose counter advances by `blockSize` and wraps. -/
def blockedJ064 (fuel : Nat) (m k n blockSize i0 j0 : Int) (s : Mem α) : Outcome (Mem α) :=
  forLoop64 fuel 0 k blockSize (blockedTile64 fuel m k n blockSize i0 j0) s

/-- Lines 46-63: the `j0` loop, whose counter advances by `blockSize` and wraps. -/
def blockedI064 (fuel : Nat) (m k n blockSize i0 : Int) (s : Mem α) : Outcome (Mem α) :=
  forLoop64 fuel 0 n blockSize (blockedJ064 fuel m k n blockSize i0) s

/-- The function `MatMulBlocked`, lines 36-65, with `int` a 64-bit
two's-complement integer: every product, every index sum and the tile counters
`i0`, `j0`, `k0` wrap.  The unit-step counters `i`, `kk`, `j` and the zeroing
counter are incremented without wrapping because a counter below its limit is
below `2^63 - 1`; `m`, `k`, `n` and `blockSize` are meant to be in
`[-2^63, 2^63)`. -/
def MatMulBlocked64 (fuel : Nat) (s : Mem α) (m k n blockSize : Int) : Outcome (Mem α) :=
  if insufficient64 s m k n then Outcome.panic PanicKind.insufficientBuffer s
  else
    match forLoop fuel 0 (wrap64 (m * n)) 1 zeroStmt s with
    | Outcome.ok s1 => forLoop64 fuel 0 m blockSize (blockedI064 fuel m k n blockSize) s1
    | r => r

end Code64

/-! ## Specification vocabulary -/

section Vocabulary

variable [Zero α] [Add α] [Mul α]

/-- Total read used in statements: the element at `idx`, or `0` out of range. -/
def get0 (xs : List α) (idx : Int) : α :=
  (load xs idx).getD 0

/-- The sum `g lo + g (lo+1) + ... ` of `len` consecutive terms, added left to
right starting from `0`. -/
def psum (g : Int → α) (lo : Int) : Nat → α
  | 0 => 0
  | t + 1 => psum g lo t + g (lo + t)

/-- The sum of `g` over the integer interval `[lo, hi)`. -/
def seg (g : Int → α) (lo hi : Int) : α :=
  psum g lo (hi - lo).toNat

/-- The product term `a[i*k+kk] * b[kk*n+j]`. -/
def term (a b : List α) (k n i kk j : Int) : α :=
  get0 a (i * k + kk) * get0 b (kk * n + j)

/-- The textbook entry `Σ_{kk in [0,k)} a[i*k+kk] * b[kk*n+j]`. -/
def dot (a b : List α) (k n i j : Int) : α :=
  seg (fun kk => term a b k n i kk j) 0 k

/-- An access stays inside the declared prefix of its slice: below `m*k` for `a`,
`k*n` for `b`, `m*n` for `c`; an update event lies in the iteration box. -/
def InBounds (m k n : Int) : Event → Prop
  | Event.read Buf.A idx => 0 ≤ idx ∧ idx < m * k
  | Event.read Buf.B idx => 0 ≤ idx ∧ idx < k * n
  | Event.read Buf.C idx => 0 ≤ idx ∧ idx < m * n
  | Event.write Buf.A idx => 0 ≤ idx ∧ idx < m * k
  | Event.write Buf.B idx => 0 ≤ idx ∧ idx < k * n
  | Event.write Buf.C idx => 0 ≤ idx ∧ idx < m * n
  | Event.update i kk j => (0 ≤ i ∧ i < m) ∧ (0 ≤ kk ∧ kk < k) ∧ (0 ≤ j ∧ j < n)

/-- The weight a box `[iLo,iHi) × [kLo,kHi) × [jLo,jHi)` of updates adds to the
entry `(i, j)`. -/
def boxW (a b : List α) (k n iLo iHi kLo kHi jLo jHi i j : Int) : α :=
  if iLo ≤ i ∧ i < iHi ∧ jLo ≤ j ∧ j < jHi then
    seg (fun kk => term a b k n i kk j) kLo kHi
  else 0

/-- Frame shared by every piece of code: `a`, `b` and the length of `c` are
kept, `c` is untouched from `m*n` on, and every new trace event is in bounds. -/
def Frame (m k n : Int) (s t : Mem α) : Prop :=
  t.a = s.a ∧ t.b = s.b ∧ t.c.length = s.c.length ∧
  (∀ p : Int, m * n ≤ p → get0 t.c p = get0 s.c p) ∧
  (∀ e ∈ t.trace, e ∈ s.trace ∨ InBounds m k n e)

/-- Running from `s` to `t` added `w i j` to every entry `(i, j)` of the
`m × n` matrix in `c` and respected the frame. -/
def Adds (m k n : Int) (w : Int → Int → α) (s t : Mem α) : Prop :=
  Frame m k n s t ∧
  ∀ i j : Int, 0 ≤ i → i < m → 0 ≤ j → j < n →
    get0 t.c (i * n + j) = get0 s.c (i * n + j) + w i j

/-- The Buffer Contract for non-negative dimensions: `len(a) >= m*k`,
`len(b) >= k*n`, `len(c) >= m*n`. -/
structure Valid (m k n : Int) (s : Mem α) : Prop where
  hm : 0 ≤ m
  hk : 0 ≤ k
  hn : 0 ≤ n
  ha : m * k ≤ (s.a.length : Int)
  hb : k * n ≤ (s.b.length : Int)
  hc : m * n ≤ (s.c.length : Int)

/-- Running from `s` to `t` assigned the textbook entry to every `(i, j)` in the
set `D`, left the other entries of the `m × n` matrix alone and respected the
frame. -/
def Sets (m k n : Int) (D : Int → Int → Prop) (s t : Mem α) : Prop :=
  Frame m k n s t ∧
  ∀ i j : Int, 0 ≤ i → i < m → 0 ≤ j → j < n →
    (D i j → get0 t.c (i * n + j) = dot s.a s.b k n i j) ∧
    (¬ D i j → get0 t.c (i * n + j) = get0 s.c (i * n + j))

/-- The common postcondition of the reference and the tiled algorithm: the
frame holds and every entry of the `m × n` result is the textbook sum. -/
def Computes (m k n : Int) (s t : Mem α) : Prop :=
  Frame m k n s t ∧
  ∀ i j : Int, 0 ≤ i → i < m → 0 ≤ j → j < n →
    get0 t.c (i * n + j) = dot s.a s.b k n i j

/-- The memory `z` is `s` after the zeroing loop and nothing else: `a` and `b`
are those of `s`, `c[0..m*n)` is zero, `c` is untouched from `m*n` on, and no
update statement was executed on the way. -/
def ZeroFilled (m n : Int) (s z : Mem α) : Prop :=
  z.a = s.a ∧ z.b = s.b ∧
  (∀ p : Int, 0 ≤ p → p < m * n → load z.c p = some 0) ∧
  (∀ p : Int, m * n ≤ p → load z.c p = load s.c p) ∧
  (∀ i kk j : Int, Event.update i kk j ∈ z.trace → Event.update i kk j ∈ s.trace)

/-- The buffers pass the size check of every entry point, whatever the signs
of the dimensions. -/
def Sized (m k n : Int) (s : Mem α) : Prop :=
  m * k ≤ (s.a.length : Int) ∧ k * n ≤ (s.b.length : Int) ∧ m * n ≤ (s.c.length : Int)

/-- Left fold in index order: starting from `v`, add `g lo`, `g (lo+1)`, ... on
the right, `len` terms in all.  No law of `+` is used. -/
def pfold (g : Int → α) (v : α) (lo : Int) : Nat → α
  | 0 => v
  | t + 1 => pfold g v lo t + g (lo + t)

/-- The left fold of `g` over the integer interval `[lo, hi)` starting from `v`. -/
def accum (g : Int → α) (v : α) (lo hi : Int) : α :=
  pfold g v lo (hi - lo).toNat

/-- What a box `[iLo,iHi) × [kLo,kHi) × [jLo,jHi)` of updates does to the value
`v` of the entry `(i, j)`: inside the box the products for `kk = kLo, ..., kHi-1`
are added to it in that order, outside it is kept. -/
def boxF (a b : List α) (k n iLo iHi kLo kHi jLo jHi i j : Int) (v : α) : α :=
  if iLo ≤ i ∧ i < iHi ∧ jLo ≤ j ∧ j < jHi then
    accum (fun kk => term a b k n i kk j) v kLo kHi
  else v

/-- How often a box of updates executes the update at `(i, kk, j)`. -/
def boxCount (iLo iHi kLo kHi jLo jHi i kk j : Int) : Nat :=
  if (iLo ≤ i ∧ i < iHi) ∧ (kLo ≤ kk ∧ kk < kHi) ∧ (jLo ≤ j ∧ j < jHi) then 1 else 0

/-- Running from `s` to `t` respected the frame, turned every entry `(i, j)` of
the `m × n` matrix in `c` from `v` into `F i j v`, and executed the update
statement `cnt i kk j` more times at `(i, kk, j)`. -/
def Runs (m k n : Int) (F : Int → Int → α → α) (cnt : Int → Int → Int → Nat)
    (s t : Mem α) : Prop :=
  Frame m k n s t ∧
  (∀ i j : Int, 0 ≤ i → i < m → 0 ≤ j → j < n →
    get0 t.c (i * n + j) = F i j (get0 s.c (i * n + j))) ∧
  (∀ i kk j : Int, t.trace.count (Event.update i kk j)
    = s.trace.count (Event.update i kk j) + cnt i kk j)

/-- The reference's summation for one entry, written as a fold over
`kk = 0, 1, ..., k-1`: `(((0 + a0*b0) + a1*b1) + ...)`. -/
def foldDot (a b : List α) (k n i j : Int) : α :=
  (List.range k.toNat).foldl
    (fun (acc : α) (kk : Nat) =>
      acc + get0 a (i * k + (kk : Int)) * get0 b ((kk : Int) * n + j)) 0

/-- The outcome is not the Precondition Violation, the explicit
`panic("matmul: insufficient buffer size")`. -/
def NoViolation {β : Type} (r : Outcome β) : Prop :=
  ∀ t : β, r ≠ Outcome.panic PanicKind.insufficientBuffer t

end Vocabulary

/-! ## Concrete inputs -/

/-- The values `1..16`, the row-major `4 × 4` matrix of the fixed scenario. -/
def seq16 : List Int :=
  [1, 2, 3, 4, 5, 6, 7, 8, 9, 10, 11, 12, 13, 14, 15, 16]

/-- The scenario `M = K = N = 4` with `a` and `b` holding `1..16`; `c` starts
with stale content. -/
def mem4 : Mem Int :=
  ⟨seq16, seq16, List.replicate 16 7, []⟩

/-- The same scenario with different stale content in `c`. -/
def mem4stale : Mem Int :=
  ⟨seq16, seq16, List.replicate 16 (-3), []⟩

/-- Buffers for the shape `M = 7, K = 11, N = 13`. -/
def mem7x11x13 : Mem Int :=
  ⟨(List.range 77).map Int.ofNat, (List.range 143).map Int.ofNat, List.replicate 91 5, []⟩

/-- The `8 × 8` identity scenario of `TestMatMulIdentity`: `a` holds 64 values,
`b` is the identity matrix, `c` starts at zero. -/
def mem8 : Mem Int :=
  ⟨(List.range 64).map (fun p => 3 * Int.ofNat p - 50),
   (List.range 64).map (fun p => if p / 8 = p % 8 then 1 else 0),
   List.replicate 64 0, []⟩

/-- The `4 × 4 × 4` scenario in buffers with spare capacity: two extra elements
in `a`, one in `b`, three in `c`. -/
def mem4spare : Mem Int :=
  ⟨seq16 ++ [100, 101], seq16 ++ [200], List.replicate 16 7 ++ [41, 42, 43], []⟩

/-- Buffers for `M = 0, K = 3, N = 2`: `a` and `c` hold no rows. -/
def memNoRows : Mem Int :=
  ⟨[], [1, 2, 3, 4, 5, 6], [], []⟩

/-- Buffers that are too short for `M = K = N = 2`. -/
def memShort : Mem Int :=
  ⟨[1], [1, 2, 3, 4], [9, 9, 9, 9], []⟩

/-- Formal expressions over named entries: `+` and `*` build syntax and satisfy
no law at all (not associative, not commutative, `zero` not neutral). -/
inductive Sym where
  | zero
  | x (i : Nat)
  | y (i : Nat)
  | stale
  | add (l r : Sym)
  | mul (l r : Sym)
deriving DecidableEq, Repr

instance : Zero Sym := ⟨Sym.zero⟩

instance : Add Sym := ⟨Sym.add⟩

instance : Mul Sym := ⟨Sym.mul⟩

/-- A `1 × 3` row times a `3 × 1` column over formal expressions. -/
def memSymRow : Mem Sym :=
  ⟨[Sym.x 0, Sym.x 1, Sym.x 2], [Sym.y 0, Sym.y 1, Sym.y 2], [Sym.stale], []⟩

/-- A `2 × 3` matrix times a `3 × 2` matrix over formal expressions. -/
def memSym : Mem Sym :=
  ⟨[Sym.x 0, Sym.x 1, Sym.x 2, Sym.x 3, Sym.x 4, Sym.x 5],
   [Sym.y 0, Sym.y 1, Sym.y 2, Sym.y 3, Sym.y 4, Sym.y 5],
   [Sym.stale, Sym.stale, Sym.stale, Sym.stale], []⟩

/-- Buffers for `m = -2`, `k = 3`, `n = -2`: the size check asks for
`len(c) >= 4` and nothing of `a` and `b`. -/
def memNegative : Mem Int :=
  ⟨[], [], [7, 7, 7, 7, 8, 9], []⟩

/-- The largest value of a 64-bit `int`, `2^63 - 1`. -/
def maxInt64 : Int := 9223372036854775807

/-- A one-element `c` with empty `a` and `b`, for `m = n = 2^32`, `k = 0`. -/
def memOverflow : Mem Int :=
  ⟨[], [], [5], []⟩

/-! ## The loop rule -/

theorem forLoop_exit {β : Type} (fuel : Nat) (i hi step : Int) (body : Int → β → Outcome β)
    (s : β) (h : hi ≤ i) : forLoop fuel i hi step body s = Outcome.ok s := by
  cases fuel <;> simp [forLoop, not_lt.mpr h]

theorem forLoop_step {β : Type} (fuel : Nat) (i hi step : Int) (body : Int → β → Outcome β)
    (s s1 : β) (h : i < hi) (hb : body i s = Outcome.ok s1) :
    forLoop (fuel + 1) i hi step body s = forLoop fuel (i + step) hi step body s1 := by
  simp [forLoop, h, hb]

/-- Invariant rule for a loop with a positive step: if the body keeps `Inv` and
returns normally, the loop returns normally within `hi - lo` iterations, at the
first counter value `x` that is not below `hi`. -/
theorem forLoop_inv {β : Type} (Inv : Int → β → Prop) (body : Int → β → Outcome β)
    (lo hi step : Int) (hstep : 0 < step)
    (hbody : ∀ i t, lo ≤ i → i < hi → Inv i t →
      ∃ t1, body i t = Outcome.ok t1 ∧ Inv (i + step) t1) :
    ∀ (fuel : Nat) (x : Int) (s : β), lo ≤ x → hi - x ≤ fuel → Inv x s →
      ∃ y t, forLoop fuel x hi step body s = Outcome.ok t ∧ hi ≤ y ∧ x ≤ y ∧
        (y = x ∨ y < hi + step) ∧ Inv y t := by
  intro fuel
  induction fuel with
  | zero =>
    intro x s _ hf hI
    have hx : hi ≤ x := by simpa using hf
    exact ⟨x, s, forLoop_exit 0 x hi step body s hx, hx, le_refl x, Or.inl rfl, hI⟩
  | succ fuel ih =>
    intro x s hlo hf hI
    by_cases hx : hi ≤ x
    · exact ⟨x, s, forLoop_exit _ x hi step body s hx, hx, le_refl x, Or.inl rfl, hI⟩
    · have hlt : x < hi := not_le.mp hx
      obtain ⟨t1, hb, hI1⟩ := hbody x s hlo hlt hI
      have hf1 : hi - (x + step) ≤ (fuel : Int) := by
        have : ((fuel + 1 : Nat) : Int) = (fuel : Int) + 1 := by push_cast; ring
        omega
      obtain ⟨y, t, hrun, hy, hxy, hor, hIy⟩ := ih (x + step) t1 (by omega) hf1 hI1
      refine ⟨y, t, ?_, hy, by omega, Or.inr ?_, hIy⟩
      · rw [forLoop_step fuel x hi step body s t1 hlt hb]; exact hrun
      · rcases hor with h | h
        · omega
        · exact h

/-- Invariant rule for the unit-step loops `for i := lo; i < hi; i++`. -/
theorem forLoop_inv_one {β : Type} (Inv : Int → β → Prop) (body : Int → β → Outcome β)
    (lo hi : Int) (hle : lo ≤ hi)
    (hbody : ∀ i t, lo ≤ i → i < hi → Inv i t →
      ∃ t1, body i t = Outcome.ok t1 ∧ Inv (i + 1) t1)
    (fuel : Nat) (s : β) (hf : hi - lo ≤ fuel) (h0 : Inv lo s) :
    ∃ t, forLoop fuel lo hi 1 body s = Outcome.ok t ∧ Inv hi t := by
  obtain ⟨y, t, hrun, hy, hxy, hor, hIy⟩ :=
    forLoop_inv Inv body lo hi 1 one_pos hbody fuel lo s (le_refl lo) hf h0
  have : y = hi := by omega
  subst this
  exact ⟨t, hrun, hIy⟩

/-! ## Row-major index arithmetic -/

theorem idx_nonneg {i n j : Int} (hi : 0 ≤ i) (hj : 0 ≤ j) (hjn : j < n) : 0 ≤ i * n + j := by
  have : 0 ≤ i * n := mul_nonneg hi (by omega)
  omega

theorem idx_lt {i m n j : Int} (him : i < m) (hj : 0 ≤ j) (hjn : j < n) :
    i * n + j < m * n := by
  have h1 : (i + 1) * n ≤ m * n := mul_le_mul_of_nonneg_right (by omega) (by omega)
  have h2 : (i + 1) * n = i * n + n := by ring
  omega

theorem idx_inj {i i1 n j j1 : Int} (hj : 0 ≤ j) (hjn : j < n) (hj1 : 0 ≤ j1) (hj1n : j1 < n)
    (h : i * n + j = i1 * n + j1) : i = i1 ∧ j = j1 := by
  have hi : i = i1 := by
    rcases lt_trichotomy i i1 with hlt | heq | hgt
    · have h1 : (i + 1) * n ≤ i1 * n := mul_le_mul_of_nonneg_right (by omega) (by omega)
      have h2 : (i + 1) * n = i * n + n := by ring
      omega
    · exact heq
    · have h1 : (i1 + 1) * n ≤ i * n := mul_le_mul_of_nonneg_right (by omega) (by omega)
      have h2 : (i1 + 1) * n = i1 * n + n := by ring
      omega
  subst hi
  exact ⟨rfl, by omega⟩

/-! ## Loads and stores -/

section LoadStore

theorem load_eq_get0 [Zero α] (xs : List α) (idx : Int) (h0 : 0 ≤ idx) (h1 : idx < (xs.length : Int)) :
    load xs idx = some (get0 xs idx) := by
  have hlt : idx.toNat < xs.length := by omega
  simp [get0, load, h0, List.getElem?_eq_getElem hlt]

theorem store_eq (xs : List α) (idx : Int) (v : α) (h0 : 0 ≤ idx)
    (h1 : idx < (xs.length : Int)) : store xs idx v = some (xs.set idx.toNat v) := by
  simp [store, h0, h1]

theorem get0_set_self [Zero α] (xs : List α) (idx : Int) (v : α) (h0 : 0 ≤ idx)
    (h1 : idx < (xs.length : Int)) : get0 (xs.set idx.toNat v) idx = v := by
  have hlt : idx.toNat < xs.length := by omega
  simp [get0, load, h0, List.getElem?_set, hlt]

theorem get0_set_ne [Zero α] (xs : List α) (idx p : Int) (v : α) (h0 : 0 ≤ idx) (hne : p ≠ idx) :
    get0 (xs.set idx.toNat v) p = get0 xs p := by
  by_cases hp : 0 ≤ p
  · have hne1 : idx.toNat ≠ p.toNat := by omega
    simp [get0, load, hp, List.getElem?_set, hne1]
  · simp [get0, load, hp]

theorem load_congr [Zero α] (xs ys : List α) (p : Int) (hlen : xs.length = ys.length)
    (h : get0 xs p = get0 ys p) : load xs p = load ys p := by
  by_cases hp : 0 ≤ p ∧ p < (xs.length : Int)
  · rw [load_eq_get0 xs p hp.1 hp.2, load_eq_get0 ys p hp.1 (by omega), h]
  · by_cases h0 : 0 ≤ p
    · have h1 : xs.length ≤ p.toNat := by omega
      have h2 : ys.length ≤ p.toNat := by omega
      simp [load, h0, List.getElem?_eq_none h1, List.getElem?_eq_none h2]
    · simp [load, h0]

end LoadStore

/-! ## Sums, frames and the Buffer Contract -/

section Raw

variable [Zero α] [Add α] [Mul α]

theorem seg_empty (g : Int → α) (lo hi : Int) (h : hi ≤ lo) : seg g lo hi = 0 := by
  have : (hi - lo).toNat = 0 := by omega
  simp [seg, this, psum]

theorem seg_succ (g : Int → α) (lo hi : Int) (h : lo ≤ hi) :
    seg g lo (hi + 1) = seg g lo hi + g hi := by
  have h1 : (hi + 1 - lo).toNat = (hi - lo).toNat + 1 := by omega
  have h2 : lo + ((hi - lo).toNat : Int) = hi := by omega
  unfold seg
  rw [h1]
  simp only [psum]
  rw [h2]

theorem seg_congr (g h : Int → α) (lo hi : Int) (hgh : ∀ x : Int, lo ≤ x → x < hi → g x = h x) :
    seg g lo hi = seg h lo hi := by
  have key : ∀ t : Nat, lo + (t : Int) ≤ Max.max lo hi → psum g lo t = psum h lo t := by
    intro t
    induction t with
    | zero => intro _; rfl
    | succ t ih =>
      intro ht
      have e : ((t + 1 : Nat) : Int) = (t : Int) + 1 := by push_cast; ring
      simp only [psum]
      rw [ih (by omega), hgh (lo + t) (by omega) (by omega)]
  exact key _ (by omega)

theorem dot_congr (a b a1 b1 : List α) (m k n i j : Int)
    (hi : 0 ≤ i) (him : i < m) (hj : 0 ≤ j) (hjn : j < n)
    (ha : ∀ p : Int, 0 ≤ p → p < m * k → get0 a p = get0 a1 p)
    (hb : ∀ p : Int, 0 ≤ p → p < k * n → get0 b p = get0 b1 p) :
    dot a b k n i j = dot a1 b1 k n i j := by
  apply seg_congr
  intro x hx0 hxk
  unfold term
  rw [ha _ (idx_nonneg hi hx0 hxk) (idx_lt him hx0 hxk),
    hb _ (idx_nonneg hx0 hj hjn) (idx_lt hxk hj hjn)]

theorem flat_decomp (m n p : Int) (hm : 0 ≤ m) (hp0 : 0 ≤ p) (hp : p < m * n) :
    ∃ i j : Int, 0 ≤ i ∧ i < m ∧ 0 ≤ j ∧ j < n ∧ p = i * n + j := by
  have hn : 0 < n := by
    by_contra h
    have : m * n ≤ 0 := mul_nonpos_of_nonneg_of_nonpos hm (by omega)
    omega
  refine ⟨p / n, p % n, Int.ediv_nonneg hp0 (by omega), ?_, Int.emod_nonneg p (by omega),
    Int.emod_lt_of_pos p hn, ?_⟩
  · exact Int.ediv_lt_of_lt_mul hn hp
  · have := Int.ediv_add_emod p n
    rw [mul_comm] at this
    omega

theorem Frame.frameRefl (m k n : Int) (s : Mem α) : Frame m k n s s :=
  ⟨rfl, rfl, rfl, fun _ _ => rfl, fun _ he => Or.inl he⟩

theorem Frame.frameTrans {m k n : Int} {s t u : Mem α} (h1 : Frame m k n s t) (h2 : Frame m k n t u) :
    Frame m k n s u := by
  obtain ⟨a1, b1, l1, f1, t1⟩ := h1
  obtain ⟨a2, b2, l2, f2, t2⟩ := h2
  refine ⟨a2.trans a1, b2.trans b1, l2.trans l1, fun p hp => (f2 p hp).trans (f1 p hp), ?_⟩
  intro e he
  rcases t2 e he with h | h
  · exact t1 e h
  · exact Or.inr h

theorem Frame.log {m k n : Int} (s : Mem α) (es : List Event)
    (h : ∀ e ∈ es, InBounds m k n e) : Frame m k n s (s.log es) := by
  refine ⟨rfl, rfl, rfl, fun _ _ => rfl, ?_⟩
  intro e he
  simp only [Mem.log, List.mem_append] at he
  rcases he with he | he
  · exact Or.inl he
  · exact Or.inr (h e he)

theorem Frame.load_tail {m k n : Int} {s t : Mem α} (h : Frame m k n s t) (p : Int)
    (hp : m * n ≤ p) : load t.c p = load s.c p :=
  load_congr t.c s.c p h.2.2.1 (h.2.2.2.1 p hp)

theorem Valid.validOfFrame {m k n : Int} {s t : Mem α} (hv : Valid m k n s) (h : Frame m k n s t) :
    Valid m k n t := by
  obtain ⟨ha, hb, hl, _, _⟩ := h
  exact ⟨hv.hm, hv.hk, hv.hn, by rw [ha]; exact hv.ha, by rw [hb]; exact hv.hb,
    by rw [hl]; exact hv.hc⟩

theorem Valid.not_insufficient {m k n : Int} {s : Mem α} (hv : Valid m k n s) :
    ¬ insufficient s m k n := by
  have := hv.ha
  have := hv.hb
  have := hv.hc
  unfold insufficient
  omega

theorem get0_take (xs : List α) (N p : Int) (hp : p < N) :
    get0 (xs.take N.toNat) p = get0 xs p := by
  by_cases h0 : 0 ≤ p
  · have : p.toNat < N.toNat := by omega
    simp [get0, load, h0, List.getElem?_take, this]
  · simp [get0, load, h0]

theorem length_take_ge (xs : List α) (N : Int) (h : N ≤ (xs.length : Int)) :
    N ≤ ((xs.take N.toNat).length : Int) := by
  rw [List.length_take]
  omega

/-! ## The zeroing loop -/

theorem zeroLoop_spec (fuel : Nat) (m k n : Int) (s : Mem α)
    (hc : m * n ≤ (s.c.length : Int)) (hf : m * n ≤ fuel) :
    ∃ t, zeroLoop fuel m n s = Outcome.ok t ∧ Frame m k n s t ∧
      ∀ p : Int, 0 ≤ p → p < m * n → get0 t.c p = 0 := by
  by_cases hmn : 0 ≤ m * n
  · apply forLoop_inv_one
      (fun x t => Frame m k n s t ∧ ∀ p : Int, 0 ≤ p → p < x → get0 t.c p = 0) _ 0 (m * n) hmn
    · intro x t hlo hhi hI
      have hlen : x < (t.c.length : Int) := by rw [hI.1.2.2.1]; omega
      refine ⟨{ t with c := t.c.set x.toNat 0, trace := t.trace ++ [Event.write Buf.C x] },
        by simp only [zeroStmt, store_eq t.c x 0 hlo hlen], ?_, ?_⟩
      · refine hI.1.frameTrans ⟨rfl, rfl, by simp, ?_, ?_⟩
        · intro p hp
          exact get0_set_ne t.c x p 0 hlo (by omega)
        · intro e he
          simp only [List.mem_append, List.mem_singleton] at he
          rcases he with he | he
          · exact Or.inl he
          · subst he; exact Or.inr ⟨hlo, hhi⟩
      · intro p hp0 hp
        by_cases hpx : p = x
        · subst hpx
          exact get0_set_self t.c p 0 hlo hlen
        · show get0 (t.c.set x.toNat 0) p = 0
          rw [get0_set_ne t.c x p 0 hlo hpx]
          exact hI.2 p hp0 (by omega)
    · omega
    · exact ⟨Frame.frameRefl m k n s, fun p hp0 hp => by omega⟩
  · refine ⟨s, forLoop_exit fuel 0 (m * n) 1 zeroStmt s (by omega), Frame.frameRefl m k n s, ?_⟩
    intro p hp0 hp
    omega

/-! ## The reference algorithm, loop by loop -/

theorem Sets.setsRefl (m k n : Int) (s : Mem α) : Sets m k n (fun _ _ => False) s s :=
  ⟨Frame.frameRefl m k n s, fun _ _ _ _ _ _ => ⟨fun h => h.elim, fun _ => rfl⟩⟩

theorem Sets.setsTrans {m k n : Int} {D1 D2 : Int → Int → Prop} {s t u : Mem α}
    (h1 : Sets m k n D1 s t) (h2 : Sets m k n D2 t u) :
    Sets m k n (fun i j => D1 i j ∨ D2 i j) s u := by
  refine ⟨h1.1.frameTrans h2.1, ?_⟩
  intro i j hi him hj hjn
  have e1 := h1.2 i j hi him hj hjn
  have e2 := h2.2 i j hi him hj hjn
  rw [h1.1.1, h1.1.2.1] at e2
  by_cases d2 : D2 i j
  · exact ⟨fun _ => e2.1 d2, fun h => (h (Or.inr d2)).elim⟩
  · by_cases d1 : D1 i j
    · exact ⟨fun _ => (e2.2 d2).trans (e1.1 d1), fun h => (h (Or.inl d1)).elim⟩
    · refine ⟨fun h => ?_, fun _ => (e2.2 d2).trans (e1.2 d1)⟩
      rcases h with h | h
      · exact (d1 h).elim
      · exact (d2 h).elim

theorem Sets.setsCongr {m k n : Int} {D1 D2 : Int → Int → Prop} {s t : Mem α}
    (h : Sets m k n D1 s t)
    (hD : ∀ i j : Int, 0 ≤ i → i < m → 0 ≤ j → j < n → (D1 i j ↔ D2 i j)) :
    Sets m k n D2 s t := by
  refine ⟨h.1, ?_⟩
  intro i j hi him hj hjn
  have e := h.2 i j hi him hj hjn
  have d := hD i j hi him hj hjn
  exact ⟨fun h2 => e.1 (d.mpr h2), fun h2 => e.2 fun h1 => h2 (d.mp h1)⟩

theorem naiveKK_spec (fuel : Nat) (m k n i j : Int) (s : Mem α) (hv : Valid m k n s)
    (hi : 0 ≤ i) (him : i < m) (hj : 0 ≤ j) (hjn : j < n) (hfk : k ≤ fuel) :
    ∃ st, forLoop fuel 0 k 1 (naiveStmt k n i j) (s, 0) = Outcome.ok st ∧
      Frame m k n s st.1 ∧ st.1.c = s.c ∧ st.2 = dot s.a s.b k n i j := by
  unfold dot
  apply forLoop_inv_one
    (fun (kk : Int) (st : Mem α × α) => Frame m k n s st.1 ∧ st.1.c = s.c ∧
      st.2 = seg (fun x => term s.a s.b k n i x j) 0 kk) _ 0 k hv.hk
  · intro kk st hlo hhi hI
    obtain ⟨hfr, hc, hsum⟩ := hI
    have hvt := hv.validOfFrame hfr
    have ha0 : 0 ≤ i * k + kk := idx_nonneg hi hlo hhi
    have ha1 : i * k + kk < m * k := idx_lt him hlo hhi
    have hb0 : 0 ≤ kk * n + j := idx_nonneg hlo hj hjn
    have hb1 : kk * n + j < k * n := idx_lt hhi hj hjn
    have hal := hvt.ha
    have hbl := hvt.hb
    have ea := load_eq_get0 st.1.a (i * k + kk) ha0 (by omega)
    have eb := load_eq_get0 st.1.b (kk * n + j) hb0 (by omega)
    refine ⟨(st.1.log [Event.read Buf.A (i * k + kk), Event.read Buf.B (kk * n + j)],
        st.2 + get0 st.1.a (i * k + kk) * get0 st.1.b (kk * n + j)),
      by simp only [naiveStmt, ea, eb], ?_, hc, ?_⟩
    · apply hfr.frameTrans
      apply Frame.log
      intro e he
      simp only [List.mem_cons, List.mem_singleton, List.not_mem_nil, or_false] at he
      rcases he with he | he
      · subst he; exact ⟨ha0, ha1⟩
      · subst he; exact ⟨hb0, hb1⟩
    · show st.2 + get0 st.1.a (i * k + kk) * get0 st.1.b (kk * n + j) = _
      rw [seg_succ _ 0 kk hlo, hsum, hfr.1, hfr.2.1]
      rfl
  · omega
  · exact ⟨Frame.frameRefl m k n s, rfl, (seg_empty _ 0 0 (le_refl 0)).symm⟩

theorem naiveCell_sets (fuel : Nat) (m k n i j : Int) (s : Mem α) (hv : Valid m k n s)
    (hi : 0 ≤ i) (him : i < m) (hj : 0 ≤ j) (hjn : j < n) (hfk : k ≤ fuel) :
    ∃ t, naiveCell fuel k n i j s = Outcome.ok t ∧
      Sets m k n (fun i1 j1 => i1 = i ∧ j1 = j) s t := by
  obtain ⟨⟨u, acc⟩, hrun, hfr, hc, hsum⟩ := naiveKK_spec fuel m k n i j s hv hi him hj hjn hfk
  simp only at hfr hc hsum
  have hc0 : 0 ≤ i * n + j := idx_nonneg hi hj hjn
  have hc1 : i * n + j < m * n := idx_lt him hj hjn
  have hcl := (hv.validOfFrame hfr).hc
  have hlen : i * n + j < (u.c.length : Int) := by omega
  refine ⟨{ u with
      c := u.c.set (i * n + j).toNat acc,
      trace := u.trace ++ [Event.write Buf.C (i * n + j)] },
    by simp only [naiveCell, hrun, store_eq u.c (i * n + j) acc hc0 hlen], ?_, ?_⟩
  · refine hfr.frameTrans ⟨rfl, rfl, by simp, ?_, ?_⟩
    · intro p hp
      exact get0_set_ne u.c (i * n + j) p _ hc0 (by omega)
    · intro e he
      simp only [List.mem_append, List.mem_singleton] at he
      rcases he with he | he
      · exact Or.inl he
      · subst he; exact Or.inr ⟨hc0, hc1⟩
  · intro i1 j1 _ _ hj1 hj1n
    constructor
    · rintro ⟨h1, h2⟩
      subst h1; subst h2
      show get0 (u.c.set (i1 * n + j1).toNat acc) (i1 * n + j1) = _
      rw [get0_set_self u.c (i1 * n + j1) acc hc0 hlen, hsum]
    · intro hne
      have hidx : i1 * n + j1 ≠ i * n + j := fun h => hne (idx_inj hj1 hj1n hj hjn h)
      show get0 (u.c.set (i * n + j).toNat acc) (i1 * n + j1) = _
      rw [get0_set_ne u.c (i * n + j) (i1 * n + j1) acc hc0 hidx, hc]

theorem naiveRow_sets (fuel : Nat) (m k n i : Int) (s : Mem α) (hv : Valid m k n s)
    (hi : 0 ≤ i) (him : i < m) (hfk : k ≤ fuel) (hf : n ≤ fuel) :
    ∃ t, naiveRow fuel k n i s = Outcome.ok t ∧ Sets m k n (fun i1 _ => i1 = i) s t := by
  obtain ⟨t, hrun, hS⟩ := forLoop_inv_one
    (fun j t => Sets m k n (fun i1 j1 => i1 = i ∧ j1 < j) s t) (naiveCell fuel k n i) 0 n hv.hn
    (by
      intro j t hlo hhi hI
      obtain ⟨t1, hrun, hS⟩ := naiveCell_sets fuel m k n i j t (hv.validOfFrame hI.1)
        hi him hlo hhi hfk
      refine ⟨t1, hrun, (hI.setsTrans hS).setsCongr ?_⟩
      intro i1 j1 _ _ _ _
      constructor
      · rintro (⟨h1, h2⟩ | ⟨h1, h2⟩)
        · exact ⟨h1, by omega⟩
        · exact ⟨h1, by omega⟩
      · rintro ⟨h1, h2⟩
        by_cases hj : j1 = j
        · exact Or.inr ⟨h1, hj⟩
        · exact Or.inl ⟨h1, by omega⟩)
    fuel s (by omega)
    ((Sets.setsRefl m k n s).setsCongr fun i1 j1 _ _ hj1 _ =>
      ⟨fun h => h.elim, fun h => by omega⟩)
  exact ⟨t, hrun, hS.setsCongr fun i1 j1 _ _ _ hj1 =>
    ⟨fun h => h.1, fun h => ⟨h, hj1⟩⟩⟩

theorem rows_sets (fuel : Nat) (m k n : Int) (s : Mem α) (hv : Valid m k n s)
    (hfm : m ≤ fuel) (hfk : k ≤ fuel) (hf : n ≤ fuel) :
    ∃ t, forLoop fuel 0 m 1 (naiveRow fuel k n) s = Outcome.ok t ∧
      Sets m k n (fun _ _ => True) s t := by
  obtain ⟨t, hrun, hS⟩ := forLoop_inv_one
    (fun i t => Sets m k n (fun i1 _ => i1 < i) s t) (naiveRow fuel k n) 0 m hv.hm
    (by
      intro i t hlo hhi hI
      obtain ⟨t1, hrun, hS⟩ := naiveRow_sets fuel m k n i t (hv.validOfFrame hI.1)
        hlo hhi hfk hf
      refine ⟨t1, hrun, (hI.setsTrans hS).setsCongr ?_⟩
      intro i1 j1 _ _ _ _
      constructor
      · rintro (h | h) <;> omega
      · intro h
        by_cases hii : i1 = i
        · exact Or.inr hii
        · exact Or.inl (by omega))
    fuel s (by omega)
    ((Sets.setsRefl m k n s).setsCongr fun i1 j1 hi1 _ _ _ =>
      ⟨fun h => h.elim, fun h => by omega⟩)
  exact ⟨t, hrun, hS.setsCongr fun i1 j1 _ hi1 _ _ => ⟨fun _ => trivial, fun _ => hi1⟩⟩

theorem MatMulNaive_computes (fuel : Nat) (m k n : Int) (s : Mem α)
    (hv : Valid m k n s) (hf : m * n + m + k + n ≤ fuel) :
    ∃ t, MatMulNaive fuel s m k n = Outcome.ok t ∧ Computes m k n s t := by
  have hm := hv.hm
  have hk := hv.hk
  have hn := hv.hn
  have hmn : 0 ≤ m * n := mul_nonneg hm hn
  obtain ⟨z, hz, hzf, _⟩ := zeroLoop_spec fuel m k n s hv.hc (by omega)
  obtain ⟨t, hrun, hS⟩ := rows_sets fuel m k n z (hv.validOfFrame hzf)
    (by omega) (by omega) (by omega)
  refine ⟨t, ?_, hzf.frameTrans hS.1, ?_⟩
  · simp only [MatMulNaive, if_neg hv.not_insufficient, hz]
    exact hrun
  · intro i j hi him hj hjn
    rw [(hS.2 i j hi him hj hjn).1 trivial, hzf.1, hzf.2.1]

theorem Computes.load_eq {m k n : Int} {s t : Mem α} (h : Computes m k n s t)
    (hv : Valid m k n s) (i j : Int) (hi : 0 ≤ i) (him : i < m) (hj : 0 ≤ j) (hjn : j < n) :
    load t.c (i * n + j) = some (dot s.a s.b k n i j) := by
  have h1 := idx_lt him hj hjn
  have h2 := (hv.validOfFrame h.1).hc
  rw [load_eq_get0 t.c (i * n + j) (idx_nonneg hi hj hjn) (by omega), h.2 i j hi him hj hjn]

theorem Computes.agree {m k n : Int} {s t s1 t1 : Mem α} (h : Computes m k n s t)
    (h1 : Computes m k n s1 t1) (hv : Valid m k n s) (hv1 : Valid m k n s1)
    (ha : ∀ p : Int, 0 ≤ p → p < m * k → get0 s.a p = get0 s1.a p)
    (hb : ∀ p : Int, 0 ≤ p → p < k * n → get0 s.b p = get0 s1.b p)
    (p : Int) (hp0 : 0 ≤ p) (hp : p < m * n) :
    load t.c p = load t1.c p ∧ (load t.c p).isSome := by
  obtain ⟨i, j, hi, him, hj, hjn, rfl⟩ := flat_decomp m n p hv.hm hp0 hp
  rw [h.load_eq hv i j hi him hj hjn, h1.load_eq hv1 i j hi him hj hjn,
    dot_congr s.a s.b s1.a s1.b m k n i j hi him hj hjn ha hb]
  exact ⟨rfl, rfl⟩

end Raw

/-! ## Exact arithmetic: interval sums and boxes -/

section Exact

variable [CommSemiring α]

theorem seg_single (g : Int → α) (x : Int) : seg g x (x + 1) = g x := by
  rw [seg_succ g x x (le_refl x), seg_empty g x x (le_refl x), zero_add]

theorem seg_split (g : Int → α) (lo mid hi : Int) (h1 : lo ≤ mid) (h2 : mid ≤ hi) :
    seg g lo mid + seg g mid hi = seg g lo hi := by
  have key : ∀ t : Nat, seg g lo mid + seg g mid (mid + t) = seg g lo (mid + t) := by
    intro t
    induction t with
    | zero => simp [seg_empty g mid mid (le_refl mid)]
    | succ t ih =>
      have e : mid + ((t + 1 : Nat) : Int) = (mid + (t : Int)) + 1 := by push_cast; ring
      rw [e, seg_succ g mid (mid + t) (by omega), seg_succ g lo (mid + t) (by omega),
        ← add_assoc, ih]
  have e : hi = mid + ((hi - mid).toNat : Int) := by omega
  rw [e]
  exact key _

theorem seg_eq_sum_range (g : Int → α) (k : Int) :
    seg g 0 k = ∑ x in Finset.range k.toNat, g (x : Int) := by
  have key : ∀ t : Nat, psum g 0 t = ∑ x in Finset.range t, g (x : Int) := by
    intro t
    induction t with
    | zero => simp [psum]
    | succ t ih => rw [Finset.sum_range_succ, ← ih]; simp [psum]
  simpa [seg] using key k.toNat

theorem boxW_split_i (a b : List α) (k n iLo iMid iHi kLo kHi jLo jHi i j : Int)
    (h1 : iLo ≤ iMid) (h2 : iMid ≤ iHi) :
    boxW a b k n iLo iMid kLo kHi jLo jHi i j + boxW a b k n iMid iHi kLo kHi jLo jHi i j
      = boxW a b k n iLo iHi kLo kHi jLo jHi i j := by
  unfold boxW
  split_ifs <;> first | (simp; done) | (exfalso; omega)

theorem boxW_split_j (a b : List α) (k n iLo iHi kLo kHi jLo jMid jHi i j : Int)
    (h1 : jLo ≤ jMid) (h2 : jMid ≤ jHi) :
    boxW a b k n iLo iHi kLo kHi jLo jMid i j + boxW a b k n iLo iHi kLo kHi jMid jHi i j
      = boxW a b k n iLo iHi kLo kHi jLo jHi i j := by
  unfold boxW
  split_ifs <;> first | (simp; done) | (exfalso; omega)

theorem boxW_split_k (a b : List α) (k n iLo iHi kLo kMid kHi jLo jHi i j : Int)
    (h1 : kLo ≤ kMid) (h2 : kMid ≤ kHi) :
    boxW a b k n iLo iHi kLo kMid jLo jHi i j + boxW a b k n iLo iHi kMid kHi jLo jHi i j
      = boxW a b k n iLo iHi kLo kHi jLo jHi i j := by
  unfold boxW
  split_ifs
  · exact seg_split _ kLo kMid kHi h1 h2
  · simp

theorem boxW_empty_i (a b : List α) (k n iLo iHi kLo kHi jLo jHi i j : Int) (h : iHi ≤ iLo) :
    boxW a b k n iLo iHi kLo kHi jLo jHi i j = 0 := by
  unfold boxW
  split_ifs <;> first | rfl | omega

theorem boxW_empty_j (a b : List α) (k n iLo iHi kLo kHi jLo jHi i j : Int) (h : jHi ≤ jLo) :
    boxW a b k n iLo iHi kLo kHi jLo jHi i j = 0 := by
  unfold boxW
  split_ifs <;> first | rfl | omega

theorem boxW_empty_k (a b : List α) (k n iLo iHi kLo kHi jLo jHi i j : Int) (h : kHi ≤ kLo) :
    boxW a b k n iLo iHi kLo kHi jLo jHi i j = 0 := by
  unfold boxW
  split_ifs
  · exact seg_empty _ kLo kHi h
  · rfl

theorem Adds.addsRefl (m k n : Int) (s : Mem α) : Adds m k n (fun _ _ => 0) s s :=
  ⟨Frame.frameRefl m k n s, fun _ _ _ _ _ _ => (add_zero _).symm⟩

theorem Adds.addsOfFrame {m k n : Int} {s t : Mem α} (h : Frame m k n s t) (hc : t.c = s.c) :
    Adds m k n (fun _ _ => 0) s t :=
  ⟨h, fun _ _ _ _ _ _ => by rw [hc, add_zero]⟩

theorem Adds.addsTrans {m k n : Int} {w1 w2 : Int → Int → α} {s t u : Mem α}
    (h1 : Adds m k n w1 s t) (h2 : Adds m k n w2 t u) :
    Adds m k n (fun i j => w1 i j + w2 i j) s u := by
  refine ⟨h1.1.frameTrans h2.1, ?_⟩
  intro i j hi him hj hjn
  rw [h2.2 i j hi him hj hjn, h1.2 i j hi him hj hjn, add_assoc]

theorem Adds.addsCongr {m k n : Int} {w1 w2 : Int → Int → α} {s t : Mem α}
    (h : Adds m k n w1 s t)
    (hw : ∀ i j : Int, 0 ≤ i → i < m → 0 ≤ j → j < n → w1 i j = w2 i j) :
    Adds m k n w2 s t := by
  refine ⟨h.1, ?_⟩
  intro i j hi him hj hjn
  rw [h.2 i j hi him hj hjn, hw i j hi him hj hjn]

/-! ## The tiled algorithm, loop by loop -/

theorem updateStmt_adds (m k n i kk j : Int) (s : Mem α) (hv : Valid m k n s)
    (hi : 0 ≤ i) (him : i < m) (hkk : 0 ≤ kk) (hkkk : kk < k) (hj : 0 ≤ j) (hjn : j < n) :
    ∃ t, updateStmt (get0 s.a (i * k + kk)) (kk * n) (i * n) i kk j s = Outcome.ok t ∧
      Adds m k n (boxW s.a s.b k n i (i + 1) kk (kk + 1) j (j + 1)) s t := by
  have hb0 : 0 ≤ kk * n + j := idx_nonneg hkk hj hjn
  have hb1 : kk * n + j < k * n := idx_lt hkkk hj hjn
  have hc0 : 0 ≤ i * n + j := idx_nonneg hi hj hjn
  have hc1 : i * n + j < m * n := idx_lt him hj hjn
  have hbl := hv.hb
  have hcl := hv.hc
  have eb := load_eq_get0 s.b (kk * n + j) hb0 (by omega)
  have ec := load_eq_get0 s.c (i * n + j) hc0 (by omega)
  refine ⟨{ s with
      c := s.c.set (i * n + j).toNat
        (get0 s.c (i * n + j) + get0 s.a (i * k + kk) * get0 s.b (kk * n + j)),
      trace := s.trace ++ [Event.read Buf.B (kk * n + j), Event.read Buf.C (i * n + j),
        Event.write Buf.C (i * n + j), Event.update i kk j] },
    by simp only [updateStmt, eb, ec], ⟨rfl, rfl, ?_, ?_, ?_⟩, ?_⟩
  · simp
  · intro p hp
    exact get0_set_ne s.c (i * n + j) p _ hc0 (by omega)
  · intro e he
    simp only [List.mem_append, List.mem_cons, List.mem_singleton, List.not_mem_nil,
      or_false] at he
    rcases he with he | he | he | he | he
    · exact Or.inl he
    · subst he; exact Or.inr ⟨hb0, hb1⟩
    · subst he; exact Or.inr ⟨hc0, hc1⟩
    · subst he; exact Or.inr ⟨hc0, hc1⟩
    · subst he; exact Or.inr ⟨⟨hi, him⟩, ⟨hkk, hkkk⟩, ⟨hj, hjn⟩⟩
  · intro i1 j1 hi1 _ hj1 hj1n
    by_cases hij : i1 = i ∧ j1 = j
    · obtain ⟨h1, h2⟩ := hij
      subst h1; subst h2
      have hw : boxW s.a s.b k n i1 (i1 + 1) kk (kk + 1) j1 (j1 + 1) i1 j1
          = get0 s.a (i1 * k + kk) * get0 s.b (kk * n + j1) := by
        unfold boxW
        rw [if_pos (by omega), seg_single]
        rfl
      show get0 (s.c.set (i1 * n + j1).toNat _) (i1 * n + j1) = _
      rw [get0_set_self s.c (i1 * n + j1) _ hc0 (by omega), hw]
    · have hne : i1 * n + j1 ≠ i * n + j := by
        intro h
        exact hij (idx_inj hj1 hj1n hj hjn h)
      have hw : boxW s.a s.b k n i (i + 1) kk (kk + 1) j (j + 1) i1 j1 = 0 := by
        unfold boxW
        rw [if_neg (by omega)]
      show get0 (s.c.set (i * n + j).toNat _) (i1 * n + j1) = _
      rw [get0_set_ne s.c (i * n + j) (i1 * n + j1) _ hc0 hne, hw, add_zero]

theorem jLoop_adds (fuel : Nat) (m k n i kk j0 jMax : Int) (s : Mem α) (hv : Valid m k n s)
    (hi : 0 ≤ i) (him : i < m) (hkk : 0 ≤ kk) (hkkk : kk < k)
    (hj0 : 0 ≤ j0) (hjle : j0 ≤ jMax) (hjn : jMax ≤ n) (hf : n ≤ fuel) :
    ∃ t, forLoop fuel j0 jMax 1 (updateStmt (get0 s.a (i * k + kk)) (kk * n) (i * n) i kk) s
        = Outcome.ok t ∧
      Adds m k n (boxW s.a s.b k n i (i + 1) kk (kk + 1) j0 jMax) s t := by
  apply forLoop_inv_one
    (fun j t => Adds m k n (boxW s.a s.b k n i (i + 1) kk (kk + 1) j0 j) s t) _ j0 jMax hjle
  · intro j t hlo hhi hI
    have hvt := hv.validOfFrame hI.1
    obtain ⟨t1, hrun, hA⟩ := updateStmt_adds m k n i kk j t hvt hi him hkk hkkk (by omega) (by omega)
    rw [hI.1.1] at hrun hA
    rw [hI.1.2.1] at hA
    refine ⟨t1, hrun, (hI.addsTrans hA).addsCongr ?_⟩
    intro i1 j1 _ _ _ _
    exact boxW_split_j s.a s.b k n i (i + 1) kk (kk + 1) j0 j (j + 1) i1 j1 hlo (by omega)
  · omega
  · exact (Adds.addsRefl m k n s).addsCongr fun i1 j1 _ _ _ _ =>
      (boxW_empty_j s.a s.b k n i (i + 1) kk (kk + 1) j0 j0 i1 j1 (le_refl j0)).symm

theorem blockedKK_adds (fuel : Nat) (m k n i kk j0 jMax : Int) (s : Mem α) (hv : Valid m k n s)
    (hi : 0 ≤ i) (him : i < m) (hkk : 0 ≤ kk) (hkkk : kk < k)
    (hj0 : 0 ≤ j0) (hjle : j0 ≤ jMax) (hjn : jMax ≤ n) (hf : n ≤ fuel) :
    ∃ t, blockedKK fuel k n j0 jMax i kk s = Outcome.ok t ∧
      Adds m k n (boxW s.a s.b k n i (i + 1) kk (kk + 1) j0 jMax) s t := by
  have ha0 : 0 ≤ i * k + kk := idx_nonneg hi hkk hkkk
  have ha1 : i * k + kk < m * k := idx_lt him hkk hkkk
  have hal := hv.ha
  have ea := load_eq_get0 s.a (i * k + kk) ha0 (by omega)
  have hfr : Frame m k n s (s.log [Event.read Buf.A (i * k + kk)]) := by
    apply Frame.log
    intro e he
    rw [List.mem_singleton] at he
    subst he
    exact ⟨ha0, ha1⟩
  obtain ⟨t, hrun, hA⟩ := jLoop_adds fuel m k n i kk j0 jMax
    (s.log [Event.read Buf.A (i * k + kk)]) (hv.validOfFrame hfr) hi him hkk hkkk hj0 hjle hjn hf
  refine ⟨t, ?_, ((Adds.addsOfFrame hfr rfl).addsTrans hA).addsCongr ?_⟩
  · simp only [blockedKK, ea]
    exact hrun
  · intro i1 j1 _ _ _ _
    exact zero_add _

theorem blockedI_adds (fuel : Nat) (m k n i k0 kMax j0 jMax : Int) (s : Mem α)
    (hv : Valid m k n s) (hi : 0 ≤ i) (him : i < m)
    (hk0 : 0 ≤ k0) (hkle : k0 ≤ kMax) (hkk : kMax ≤ k)
    (hj0 : 0 ≤ j0) (hjle : j0 ≤ jMax) (hjn : jMax ≤ n) (hfk : k ≤ fuel) (hf : n ≤ fuel) :
    ∃ t, blockedI fuel k n j0 jMax k0 kMax i s = Outcome.ok t ∧
      Adds m k n (boxW s.a s.b k n i (i + 1) k0 kMax j0 jMax) s t := by
  apply forLoop_inv_one
    (fun kk t => Adds m k n (boxW s.a s.b k n i (i + 1) k0 kk j0 jMax) s t) _ k0 kMax hkle
  · intro kk t hlo hhi hI
    obtain ⟨t1, hrun, hA⟩ := blockedKK_adds fuel m k n i kk j0 jMax t (hv.validOfFrame hI.1)
      hi him (by omega) (by omega) hj0 hjle hjn hf
    rw [hI.1.1, hI.1.2.1] at hA
    refine ⟨t1, hrun, (hI.addsTrans hA).addsCongr ?_⟩
    intro i1 j1 _ _ _ _
    exact boxW_split_k s.a s.b k n i (i + 1) k0 kk (kk + 1) j0 jMax i1 j1 hlo (by omega)
  · omega
  · exact (Adds.addsRefl m k n s).addsCongr fun i1 j1 _ _ _ _ =>
      (boxW_empty_k s.a s.b k n i (i + 1) k0 k0 j0 jMax i1 j1 (le_refl k0)).symm

theorem tile_adds (fuel : Nat) (m k n i0 iMax k0 kMax j0 jMax : Int) (s : Mem α)
    (hv : Valid m k n s) (hi0 : 0 ≤ i0) (hile : i0 ≤ iMax) (him : iMax ≤ m)
    (hk0 : 0 ≤ k0) (hkle : k0 ≤ kMax) (hkk : kMax ≤ k)
    (hj0 : 0 ≤ j0) (hjle : j0 ≤ jMax) (hjn : jMax ≤ n)
    (hfm : m ≤ fuel) (hfk : k ≤ fuel) (hf : n ≤ fuel) :
    ∃ t, forLoop fuel i0 iMax 1 (blockedI fuel k n j0 jMax k0 kMax) s = Outcome.ok t ∧
      Adds m k n (boxW s.a s.b k n i0 iMax k0 kMax j0 jMax) s t := by
  apply forLoop_inv_one
    (fun i t => Adds m k n (boxW s.a s.b k n i0 i k0 kMax j0 jMax) s t) _ i0 iMax hile
  · intro i t hlo hhi hI
    obtain ⟨t1, hrun, hA⟩ := blockedI_adds fuel m k n i k0 kMax j0 jMax t (hv.validOfFrame hI.1)
      (by omega) (by omega) hk0 hkle hkk hj0 hjle hjn hfk hf
    rw [hI.1.1, hI.1.2.1] at hA
    refine ⟨t1, hrun, (hI.addsTrans hA).addsCongr ?_⟩
    intro i1 j1 _ _ _ _
    exact boxW_split_i s.a s.b k n i0 i (i + 1) k0 kMax j0 jMax i1 j1 hlo (by omega)
  · omega
  · exact (Adds.addsRefl m k n s).addsCongr fun i1 j1 _ _ _ _ =>
      (boxW_empty_i s.a s.b k n i0 i0 k0 kMax j0 jMax i1 j1 (le_refl i0)).symm

theorem min_ge {x y hi : Int} (h : hi ≤ y) (hx : x ≤ hi) : x ≤ min y hi ∧ min y hi = hi := by
  unfold min
  split_ifs <;> omega

theorem min_step {x bs hi : Int} (hbs : 0 < bs) (hx : x < hi) :
    x ≤ min (x + bs) hi ∧ min (x + bs) hi ≤ hi ∧ min x hi = x := by
  unfold min
  split_ifs <;> omega

theorem blockedTile_adds (fuel : Nat) (m k n bs i0 j0 k0 : Int) (s : Mem α)
    (hv : Valid m k n s) (hbs : 0 < bs) (hi0 : 0 ≤ i0) (him : i0 < m)
    (hk0 : 0 ≤ k0) (hkk : k0 < k) (hj0 : 0 ≤ j0) (hjn : j0 < n)
    (hfm : m ≤ fuel) (hfk : k ≤ fuel) (hf : n ≤ fuel) :
    ∃ t, blockedTile fuel m k n bs i0 j0 k0 s = Outcome.ok t ∧
      Adds m k n (boxW s.a s.b k n i0 (min (i0 + bs) m) k0 (min (k0 + bs) k)
        j0 (min (j0 + bs) n)) s t := by
  have h1 := min_step hbs him
  have h2 := min_step hbs hkk
  have h3 := min_step hbs hjn
  exact tile_adds fuel m k n i0 _ k0 _ j0 _ s hv hi0 h1.1 h1.2.1 hk0 h2.1 h2.2.1
    hj0 h3.1 h3.2.1 hfm hfk hf

theorem min_le_zero (hi : Int) : min 0 hi ≤ 0 := by
  unfold min
  split_ifs <;> omega

theorem blockedJ0_adds (fuel : Nat) (m k n bs i0 j0 : Int) (s : Mem α)
    (hv : Valid m k n s) (hbs : 0 < bs) (hi0 : 0 ≤ i0) (him : i0 < m)
    (hj0 : 0 ≤ j0) (hjn : j0 < n)
    (hfm : m ≤ fuel) (hfk : k ≤ fuel) (hf : n ≤ fuel) :
    ∃ t, blockedJ0 fuel m k n bs i0 j0 s = Outcome.ok t ∧
      Adds m k n (boxW s.a s.b k n i0 (min (i0 + bs) m) 0 k j0 (min (j0 + bs) n)) s t := by
  obtain ⟨y, t, hrun, hy, _, _, hI⟩ := forLoop_inv
    (fun k0 t => Adds m k n
      (boxW s.a s.b k n i0 (min (i0 + bs) m) 0 (min k0 k) j0 (min (j0 + bs) n)) s t)
    (blockedTile fuel m k n bs i0 j0) 0 k bs hbs
    (by
      intro k0 t hlo hhi hI
      obtain ⟨t1, hrun, hA⟩ := blockedTile_adds fuel m k n bs i0 j0 k0 t (hv.validOfFrame hI.1)
        hbs hi0 him hlo hhi hj0 hjn hfm hfk hf
      rw [hI.1.1, hI.1.2.1] at hA
      have hmin := min_step hbs hhi
      rw [hmin.2.2] at hI
      refine ⟨t1, hrun, (hI.addsTrans hA).addsCongr ?_⟩
      intro i1 j1 _ _ _ _
      exact boxW_split_k s.a s.b k n i0 _ 0 k0 _ j0 _ i1 j1 hlo hmin.1)
    fuel 0 s (le_refl 0) (by omega)
    ((Adds.addsRefl m k n s).addsCongr fun i1 j1 _ _ _ _ =>
      (boxW_empty_k s.a s.b k n i0 _ 0 (min 0 k) j0 _ i1 j1 (min_le_zero k)).symm)
  rw [(min_ge hy hv.hk).2] at hI
  exact ⟨t, hrun, hI⟩

theorem blockedI0_adds (fuel : Nat) (m k n bs i0 : Int) (s : Mem α)
    (hv : Valid m k n s) (hbs : 0 < bs) (hi0 : 0 ≤ i0) (him : i0 < m)
    (hfm : m ≤ fuel) (hfk : k ≤ fuel) (hf : n ≤ fuel) :
    ∃ t, blockedI0 fuel m k n bs i0 s = Outcome.ok t ∧
      Adds m k n (boxW s.a s.b k n i0 (min (i0 + bs) m) 0 k 0 n) s t := by
  obtain ⟨y, t, hrun, hy, _, _, hI⟩ := forLoop_inv
    (fun j0 t => Adds m k n
      (boxW s.a s.b k n i0 (min (i0 + bs) m) 0 k 0 (min j0 n)) s t)
    (blockedJ0 fuel m k n bs i0) 0 n bs hbs
    (by
      intro j0 t hlo hhi hI
      obtain ⟨t1, hrun, hA⟩ := blockedJ0_adds fuel m k n bs i0 j0 t (hv.validOfFrame hI.1)
        hbs hi0 him hlo hhi hfm hfk hf
      rw [hI.1.1, hI.1.2.1] at hA
      have hmin := min_step hbs hhi
      rw [hmin.2.2] at hI
      refine ⟨t1, hrun, (hI.addsTrans hA).addsCongr ?_⟩
      intro i1 j1 _ _ _ _
      exact boxW_split_j s.a s.b k n i0 _ 0 k 0 j0 _ i1 j1 hlo hmin.1)
    fuel 0 s (le_refl 0) (by omega)
    ((Adds.addsRefl m k n s).addsCongr fun i1 j1 _ _ _ _ =>
      (boxW_empty_j s.a s.b k n i0 _ 0 k 0 (min 0 n) i1 j1 (min_le_zero n)).symm)
  rw [(min_ge hy hv.hn).2] at hI
  exact ⟨t, hrun, hI⟩

theorem tiles_adds (fuel : Nat) (m k n bs : Int) (s : Mem α)
    (hv : Valid m k n s) (hbs : 0 < bs)
    (hfm : m ≤ fuel) (hfk : k ≤ fuel) (hf : n ≤ fuel) :
    ∃ t, forLoop fuel 0 m bs (blockedI0 fuel m k n bs) s = Outcome.ok t ∧
      Adds m k n (boxW s.a s.b k n 0 m 0 k 0 n) s t := by
  obtain ⟨y, t, hrun, hy, _, _, hI⟩ := forLoop_inv
    (fun i0 t => Adds m k n (boxW s.a s.b k n 0 (min i0 m) 0 k 0 n) s t)
    (blockedI0 fuel m k n bs) 0 m bs hbs
    (by
      intro i0 t hlo hhi hI
      obtain ⟨t1, hrun, hA⟩ := blockedI0_adds fuel m k n bs i0 t (hv.validOfFrame hI.1)
        hbs hlo hhi hfm hfk hf
      rw [hI.1.1, hI.1.2.1] at hA
      have hmin := min_step hbs hhi
      rw [hmin.2.2] at hI
      refine ⟨t1, hrun, (hI.addsTrans hA).addsCongr ?_⟩
      intro i1 j1 _ _ _ _
      exact boxW_split_i s.a s.b k n 0 i0 _ 0 k 0 n i1 j1 hlo hmin.1)
    fuel 0 s (le_refl 0) (by omega)
    ((Adds.addsRefl m k n s).addsCongr fun i1 j1 _ _ _ _ =>
      (boxW_empty_i s.a s.b k n 0 (min 0 m) 0 k 0 n i1 j1 (min_le_zero m)).symm)
  rw [(min_ge hy hv.hm).2] at hI
  exact ⟨t, hrun, hI⟩

theorem MatMulBlocked_computes (fuel : Nat) (m k n bs : Int) (s : Mem α)
    (hv : Valid m k n s) (hbs : 0 < bs) (hf : m * n + m + k + n ≤ fuel) :
    ∃ t, MatMulBlocked fuel s m k n bs = Outcome.ok t ∧ Computes m k n s t := by
  have hm := hv.hm
  have hk := hv.hk
  have hn := hv.hn
  have hmn : 0 ≤ m * n := mul_nonneg hm hn
  obtain ⟨z, hz, hzf, hz0⟩ := zeroLoop_spec fuel m k n s hv.hc (by omega)
  obtain ⟨t, hrun, hA⟩ := tiles_adds fuel m k n bs z (hv.validOfFrame hzf) hbs
    (by omega) (by omega) (by omega)
  refine ⟨t, ?_, hzf.frameTrans hA.1, ?_⟩
  · simp only [MatMulBlocked, if_neg hv.not_insufficient, hz]
    exact hrun
  · intro i j hi him hj hjn
    rw [hA.2 i j hi him hj hjn, hz0 (i * n + j) (idx_nonneg hi hj hjn) (idx_lt him hj hjn),
      zero_add, hzf.1, hzf.2.1]
    unfold boxW dot
    rw [if_pos ⟨hi, him, hj, hjn⟩]

/-! ## The claims -/

/-- C1: `MatMulNaive` computes the textbook product.  For `m, k, n >= 0` and
buffers with `len(a) >= m*k`, `len(b) >= k*n`, `len(c) >= m*n` the call returns
normally and afterwards, for all `i < m` and `j < n`,
`c[i*n+j] = Σ_{kk in [0,k)} a[i*k+kk] * b[kk*n+j]` over a commutative semiring
(`get0` reads the element at an index, all indices here being in range); the sum
is `0` when `k = 0`. -/
theorem MatMulNaive_textbook_product (fuel : Nat) (s : Mem α) (m k n : Int)
    (hm : 0 ≤ m) (hk : 0 ≤ k) (hn : 0 ≤ n)
    (ha : m * k ≤ (s.a.length : Int)) (hb : k * n ≤ (s.b.length : Int))
    (hc : m * n ≤ (s.c.length : Int)) (hf : m * n + m + k + n ≤ (fuel : Int)) :
    ∃ t, MatMulNaive fuel s m k n = Outcome.ok t ∧
      ∀ i j : Int, 0 ≤ i → i < m → 0 ≤ j → j < n →
        load t.c (i * n + j)
          = some (∑ kk in Finset.range k.toNat,
              get0 s.a (i * k + (kk : Int)) * get0 s.b ((kk : Int) * n + j)) ∧
        (k = 0 → load t.c (i * n + j) = some 0) := by
  have hv : Valid m k n s := ⟨hm, hk, hn, ha, hb, hc⟩
  obtain ⟨t, hrun, hC⟩ := MatMulNaive_computes fuel m k n s hv hf
  refine ⟨t, hrun, ?_⟩
  intro i j hi him hj hjn
  have e := hC.load_eq hv i j hi him hj hjn
  have e2 : dot s.a s.b k n i j = ∑ kk in Finset.range k.toNat,
      get0 s.a (i * k + (kk : Int)) * get0 s.b ((kk : Int) * n + j) := by
    unfold dot
    rw [seg_eq_sum_range]
    rfl
  rw [e2] at e
  refine ⟨e, ?_⟩
  intro hk0
  rw [e, hk0]
  simp

end Exact

/-- Witness for C1: `m = k = n = 4`, `a` and `b` holding `1..16`, gives
`c[0] = 1*1 + 2*5 + 3*9 + 4*13 = 90`. -/
theorem MatMulNaive_textbook_product_witness :
    ∃ t, MatMulNaive 28 mem4 4 4 4 = Outcome.ok t ∧ load t.c 0 = some 90 := by
  obtain ⟨t, hrun, h⟩ := MatMulNaive_textbook_product 28 mem4 4 4 4
    (by decide) (by decide) (by decide) (by decide) (by decide) (by decide) (by decide)
  refine ⟨t, hrun, ?_⟩
  have e := (h 0 0 (by decide) (by decide) (by decide) (by decide)).1
  exact e.trans (by decide)

section Claims

variable [CommSemiring α]

/-- C2: `MatMulBlocked` agrees with `MatMulNaive`.  For `m, k, n >= 0`, every
`blockSize > 0` (dividing the dimensions or not) and buffers of sufficient
length, both calls return normally from the same initial memory and the first
`m*n` elements of `c` are equal element by element (and present), over exact
arithmetic. -/
theorem MatMulBlocked_agrees_with_naive (fuel : Nat) (s : Mem α) (m k n blockSize : Int)
    (hm : 0 ≤ m) (hk : 0 ≤ k) (hn : 0 ≤ n)
    (ha : m * k ≤ (s.a.length : Int)) (hb : k * n ≤ (s.b.length : Int))
    (hc : m * n ≤ (s.c.length : Int)) (hbs : 0 < blockSize)
    (hf : m * n + m + k + n ≤ (fuel : Int)) :
    ∃ tB tN, MatMulBlocked fuel s m k n blockSize = Outcome.ok tB ∧
      MatMulNaive fuel s m k n = Outcome.ok tN ∧
      ∀ p : Int, 0 ≤ p → p < m * n → load tB.c p = load tN.c p ∧ (load tB.c p).isSome := by
  have hv : Valid m k n s := ⟨hm, hk, hn, ha, hb, hc⟩
  obtain ⟨tB, hB, hCB⟩ := MatMulBlocked_computes fuel m k n blockSize s hv hbs hf
  obtain ⟨tN, hN, hCN⟩ := MatMulNaive_computes fuel m k n s hv hf
  exact ⟨tB, tN, hB, hN, fun p hp0 hp =>
    hCB.agree hCN hv hv (fun _ _ _ => rfl) (fun _ _ _ => rfl) p hp0 hp⟩

end Claims

/-- Witness for C2: the shape `7 × 11 × 13` with block size `4`, which divides
none of the dimensions. -/
theorem MatMulBlocked_agrees_with_naive_witness :
    ∃ tB tN, MatMulBlocked 122 mem7x11x13 7 11 13 4 = Outcome.ok tB ∧
      MatMulNaive 122 mem7x11x13 7 11 13 = Outcome.ok tN ∧
      ∀ p : Int, 0 ≤ p → p < 7 * 13 → load tB.c p = load tN.c p ∧ (load tB.c p).isSome :=
  MatMulBlocked_agrees_with_naive 122 mem7x11x13 7 11 13 4
    (by decide) (by decide) (by decide) (by simp [mem7x11x13]) (by simp [mem7x11x13])
    (by simp [mem7x11x13]) (by decide) (by decide)

/-! ## The zeroing loop on its own -/

section ZeroFill

variable [Zero α] [Add α] [Mul α]

/-- A loop whose body always returns normally never panics, whatever the fuel. -/
theorem forLoop_ok_or_timeout {β : Type} (Inv : Int → β → Prop) (body : Int → β → Outcome β)
    (lo hi step : Int) (hstep : 0 ≤ step)
    (hbody : ∀ i t, lo ≤ i → i < hi → Inv i t →
      ∃ t1, body i t = Outcome.ok t1 ∧ Inv (i + step) t1) :
    ∀ (fuel : Nat) (x : Int) (s : β), lo ≤ x → Inv x s →
      ∃ t, forLoop fuel x hi step body s = Outcome.ok t ∨
        forLoop fuel x hi step body s = Outcome.timeout t := by
  intro fuel
  induction fuel with
  | zero =>
    intro x s _ _
    by_cases h : x < hi
    · exact ⟨s, Or.inr (by simp [forLoop, h])⟩
    · exact ⟨s, Or.inl (by simp [forLoop, h])⟩
  | succ fuel ih =>
    intro x s hlo hI
    by_cases h : x < hi
    · obtain ⟨t1, hb, hI1⟩ := hbody x s hlo h hI
      rw [forLoop_step fuel x hi step body s t1 h hb]
      exact ih (x + step) t1 (by omega) hI1
    · exact ⟨s, Or.inl (forLoop_exit _ x hi step body s (by omega))⟩

theorem zeroLoop_ok_or_timeout (fuel : Nat) (m n : Int) (s : Mem α)
    (hc : m * n ≤ (s.c.length : Int)) :
    ∃ t, zeroLoop fuel m n s = Outcome.ok t ∨ zeroLoop fuel m n s = Outcome.timeout t := by
  apply forLoop_ok_or_timeout (fun _ (t : Mem α) => t.c.length = s.c.length) zeroStmt 0 (m * n) 1
    (by omega) _ fuel 0 s (le_refl 0) rfl
  intro x t hlo hhi hI
  have hlen : x < (t.c.length : Int) := by rw [hI]; omega
  exact ⟨{ t with c := t.c.set x.toNat 0, trace := t.trace ++ [Event.write Buf.C x] },
    by simp only [zeroStmt, store_eq t.c x 0 hlo hlen], by simpa using hI⟩

theorem zeroLoop_zeroFilled (fuel : Nat) (m n : Int) (s : Mem α)
    (hc : m * n ≤ (s.c.length : Int)) (hf : m * n ≤ fuel) :
    ∃ z, zeroLoop fuel m n s = Outcome.ok z ∧ ZeroFilled m n s z := by
  obtain ⟨z, hz, hfr, h0⟩ := zeroLoop_spec fuel m 0 n s hc hf
  refine ⟨z, hz, hfr.1, hfr.2.1, ?_, fun p hp => hfr.load_tail p hp, ?_⟩
  · intro p hp0 hp
    have hl := hfr.2.2.1
    rw [load_eq_get0 z.c p hp0 (by omega), h0 p hp0 hp]
  · intro i kk j he
    rcases hfr.2.2.2.2 _ he with h | h
    · exact h
    · exact absurd h.2.1 (by omega)

end ZeroFill

/-! ## Identity law and block-size invariance -/

section Laws

variable [CommSemiring α]

/-- Multiplying a row by a column of the identity matrix picks one element. -/
theorem dot_identity (a b : List α) (N i j : Int) (hj : 0 ≤ j) (hjn : j < N)
    (hid : ∀ x : Int, 0 ≤ x → x < N → ∀ y : Int, 0 ≤ y → y < N →
      load b (x * N + y) = some (if x = y then 1 else 0)) :
    dot a b N N i j = get0 a (i * N + j) := by
  have hcongr : dot a b N N i j
      = seg (fun kk => get0 a (i * N + kk) * (if kk = j then 1 else 0)) 0 N := by
    apply seg_congr
    intro x hx0 hxN
    unfold term
    congr 1
    unfold get0
    rw [hid x hx0 hxN j hj hjn]
    rfl
  rw [hcongr, seg_eq_sum_range, Finset.sum_eq_single j.toNat]
  · have : ((j.toNat : Nat) : Int) = j := by omega
    rw [this, if_pos rfl, mul_one]
  · intro x _ hne
    have : ((x : Nat) : Int) ≠ j := by omega
    rw [if_neg this, mul_zero]
  · intro hnot
    exact absurd (Finset.mem_range.mpr (by omega)) hnot

theorem Computes.identity {M N : Int} {s t : Mem α} (h : Computes M N N s t)
    (hv : Valid M N N s)
    (hid : ∀ x : Int, 0 ≤ x → x < N → ∀ y : Int, 0 ≤ y → y < N →
      load s.b (x * N + y) = some (if x = y then 1 else 0))
    (p : Int) (hp0 : 0 ≤ p) (hp : p < M * N) :
    load t.c p = load s.a p ∧ (load t.c p).isSome := by
  obtain ⟨i, j, hi, him, hj, hjn, rfl⟩ := flat_decomp M N p hv.hm hp0 hp
  have hal := hv.ha
  rw [h.load_eq hv i j hi him hj hjn, dot_identity s.a s.b N i j hj hjn hid,
    load_eq_get0 s.a (i * N + j) hp0 (by omega)]
  exact ⟨rfl, rfl⟩

/-- C8: identity law.  For `M, N >= 0`, a buffer `a` holding an `M × N` matrix
and `b` the `N × N` identity matrix (`b[i*N+i] = 1`, every other entry `0`),
multiplying with dimensions `(M, N, N)` returns normally and leaves
`c[p] = a[p]` for every `p < M*N`, for `MatMulNaive` and for `MatMulBlocked`
with any `blockSize > 0`, over exact arithmetic. -/
theorem identity_law (fuel : Nat) (s : Mem α) (M N blockSize : Int)
    (hM : 0 ≤ M) (hN : 0 ≤ N)
    (ha : M * N ≤ (s.a.length : Int)) (hb : N * N ≤ (s.b.length : Int))
    (hc : M * N ≤ (s.c.length : Int))
    (hid : ∀ x : Int, 0 ≤ x → x < N → ∀ y : Int, 0 ≤ y → y < N →
      load s.b (x * N + y) = some (if x = y then 1 else 0))
    (hbs : 0 < blockSize) (hf : M * N + M + N + N ≤ (fuel : Int)) :
    (∃ t, MatMulNaive fuel s M N N = Outcome.ok t ∧
      ∀ p : Int, 0 ≤ p → p < M * N → load t.c p = load s.a p ∧ (load t.c p).isSome) ∧
    (∃ t, MatMulBlocked fuel s M N N blockSize = Outcome.ok t ∧
      ∀ p : Int, 0 ≤ p → p < M * N → load t.c p = load s.a p ∧ (load t.c p).isSome) := by
  have hv : Valid M N N s := ⟨hM, hN, hN, ha, hb, hc⟩
  obtain ⟨tB, hB, hCB⟩ := MatMulBlocked_computes fuel M N N blockSize s hv hbs hf
  obtain ⟨tN, hN1, hCN⟩ := MatMulNaive_computes fuel M N N s hv hf
  exact ⟨⟨tN, hN1, fun p hp0 hp => hCN.identity hv hid p hp0 hp⟩,
    ⟨tB, hB, fun p hp0 hp => hCB.identity hv hid p hp0 hp⟩⟩

/-- C9: block-size invariance.  For fixed `a`, `b`, `m, k, n >= 0` with buffers
of sufficient length and any two block sizes `s1 > 0` and `s2 > 0` (such as `1`,
a value below every dimension and a value above every dimension),
`MatMulBlocked` returns normally with both and produces the same first `m*n`
elements of `c`, over exact arithmetic. -/
theorem block_size_invariance (fuel : Nat) (s : Mem α) (m k n s1 s2 : Int)
    (hm : 0 ≤ m) (hk : 0 ≤ k) (hn : 0 ≤ n)
    (ha : m * k ≤ (s.a.length : Int)) (hb : k * n ≤ (s.b.length : Int))
    (hc : m * n ≤ (s.c.length : Int)) (h1 : 0 < s1) (h2 : 0 < s2)
    (hf : m * n + m + k + n ≤ (fuel : Int)) :
    ∃ t1 t2, MatMulBlocked fuel s m k n s1 = Outcome.ok t1 ∧
      MatMulBlocked fuel s m k n s2 = Outcome.ok t2 ∧
      ∀ p : Int, 0 ≤ p → p < m * n → load t1.c p = load t2.c p ∧ (load t1.c p).isSome := by
  have hv : Valid m k n s := ⟨hm, hk, hn, ha, hb, hc⟩
  obtain ⟨t1, hr1, hC1⟩ := MatMulBlocked_computes fuel m k n s1 s hv h1 hf
  obtain ⟨t2, hr2, hC2⟩ := MatMulBlocked_computes fuel m k n s2 s hv h2 hf
  exact ⟨t1, t2, hr1, hr2, fun p hp0 hp =>
    hC1.agree hC2 hv hv (fun _ _ _ => rfl) (fun _ _ _ => rfl) p hp0 hp⟩

end Laws

/-- Witness for C8: the `8 × 8` case of `TestMatMulIdentity`, with block size
`3`. -/
theorem identity_law_witness :
    (∃ t, MatMulNaive 88 mem8 8 8 8 = Outcome.ok t ∧
      ∀ p : Int, 0 ≤ p → p < 8 * 8 → load t.c p = load mem8.a p ∧ (load t.c p).isSome) ∧
    (∃ t, MatMulBlocked 88 mem8 8 8 8 3 = Outcome.ok t ∧
      ∀ p : Int, 0 ≤ p → p < 8 * 8 → load t.c p = load mem8.a p ∧ (load t.c p).isSome) :=
  identity_law 88 mem8 8 8 3 (by decide) (by decide)
    (by simp [mem8]) (by simp [mem8]) (by simp [mem8])
    (by
      intro x hx0 hx y hy0 hy
      interval_cases x <;> interval_cases y <;> rfl)
    (by decide) (by decide)

/-- Witness for C9: block sizes `1` and `20` on the shape `7 × 11 × 13`. -/
theorem block_size_invariance_witness :
    ∃ t1 t2, MatMulBlocked 122 mem7x11x13 7 11 13 1 = Outcome.ok t1 ∧
      MatMulBlocked 122 mem7x11x13 7 11 13 20 = Outcome.ok t2 ∧
      ∀ p : Int, 0 ≤ p → p < 7 * 13 → load t1.c p = load t2.c p ∧ (load t1.c p).isSome :=
  block_size_invariance 122 mem7x11x13 7 11 13 1 20
    (by decide) (by decide) (by decide) (by simp [mem7x11x13]) (by simp [mem7x11x13])
    (by simp [mem7x11x13]) (by decide) (by decide) (by decide)

/-! ## Accumulation order: folds and boxes without any law of arithmetic -/

section Order

variable [Zero α] [Add α] [Mul α]

theorem accum_empty (g : Int → α) (v : α) (lo hi : Int) (h : hi ≤ lo) : accum g v lo hi = v := by
  have : (hi - lo).toNat = 0 := by omega
  simp [accum, this, pfold]

theorem accum_succ (g : Int → α) (v : α) (lo hi : Int) (h : lo ≤ hi) :
    accum g v lo (hi + 1) = accum g v lo hi + g hi := by
  have h1 : (hi + 1 - lo).toNat = (hi - lo).toNat + 1 := by omega
  have h2 : lo + ((hi - lo).toNat : Int) = hi := by omega
  unfold accum
  rw [h1]
  simp only [pfold]
  rw [h2]

theorem accum_single (g : Int → α) (v : α) (x : Int) : accum g v x (x + 1) = v + g x := by
  rw [accum_succ g v x x (le_refl x), accum_empty g v x x (le_refl x)]

theorem accum_split (g : Int → α) (v : α) (lo mid hi : Int) (h1 : lo ≤ mid) (h2 : mid ≤ hi) :
    accum g (accum g v lo mid) mid hi = accum g v lo hi := by
  have key : ∀ t : Nat, accum g (accum g v lo mid) mid (mid + t) = accum g v lo (mid + t) := by
    intro t
    induction t with
    | zero => simp [accum_empty g _ mid mid (le_refl mid)]
    | succ t ih =>
      have e : mid + ((t + 1 : Nat) : Int) = (mid + (t : Int)) + 1 := by push_cast; ring
      rw [e, accum_succ g _ mid (mid + t) (by omega), accum_succ g v lo (mid + t) (by omega), ih]
  have e : hi = mid + ((hi - mid).toNat : Int) := by omega
  rw [e]
  exact key _

theorem seg_eq_accum (g : Int → α) (lo hi : Int) : seg g lo hi = accum g 0 lo hi := by
  have key : ∀ t : Nat, psum g lo t = pfold g 0 lo t := by
    intro t
    induction t with
    | zero => rfl
    | succ t ih => simp only [psum, pfold, ih]
  exact key _

theorem seg_eq_foldl (g : Int → α) (k : Int) :
    seg g 0 k = (List.range k.toNat).foldl (fun (acc : α) (kk : Nat) => acc + g (kk : Int)) 0 := by
  have key : ∀ t : Nat,
      psum g 0 t = (List.range t).foldl (fun (acc : α) (kk : Nat) => acc + g (kk : Int)) 0 := by
    intro t
    induction t with
    | zero => rfl
    | succ t ih =>
      rw [List.range_succ, List.foldl_append]
      simp only [psum, List.foldl_cons, List.foldl_nil, ← ih, zero_add]
  simpa [seg] using key k.toNat

theorem dot_eq_foldDot (a b : List α) (k n i j : Int) : dot a b k n i j = foldDot a b k n i j := by
  unfold dot foldDot
  rw [seg_eq_foldl]
  rfl

theorem boxF_split_i (a b : List α) (k n iLo iMid iHi kLo kHi jLo jHi i j : Int) (v : α)
    (h1 : iLo ≤ iMid) (h2 : iMid ≤ iHi) :
    boxF a b k n iMid iHi kLo kHi jLo jHi i j (boxF a b k n iLo iMid kLo kHi jLo jHi i j v)
      = boxF a b k n iLo iHi kLo kHi jLo jHi i j v := by
  unfold boxF
  split_ifs <;> first | rfl | (exfalso; omega)

theorem boxF_split_j (a b : List α) (k n iLo iHi kLo kHi jLo jMid jHi i j : Int) (v : α)
    (h1 : jLo ≤ jMid) (h2 : jMid ≤ jHi) :
    boxF a b k n iLo iHi kLo kHi jMid jHi i j (boxF a b k n iLo iHi kLo kHi jLo jMid i j v)
      = boxF a b k n iLo iHi kLo kHi jLo jHi i j v := by
  unfold boxF
  split_ifs <;> first | rfl | (exfalso; omega)

theorem boxF_split_k (a b : List α) (k n iLo iHi kLo kMid kHi jLo jHi i j : Int) (v : α)
    (h1 : kLo ≤ kMid) (h2 : kMid ≤ kHi) :
    boxF a b k n iLo iHi kMid kHi jLo jHi i j (boxF a b k n iLo iHi kLo kMid jLo jHi i j v)
      = boxF a b k n iLo iHi kLo kHi jLo jHi i j v := by
  unfold boxF
  split_ifs
  · exact accum_split _ v kLo kMid kHi h1 h2
  · rfl

theorem boxF_empty_i (a b : List α) (k n iLo iHi kLo kHi jLo jHi i j : Int) (v : α)
    (h : iHi ≤ iLo) : boxF a b k n iLo iHi kLo kHi jLo jHi i j v = v := by
  unfold boxF
  split_ifs <;> first | rfl | (exfalso; omega)

theorem boxF_empty_j (a b : List α) (k n iLo iHi kLo kHi jLo jHi i j : Int) (v : α)
    (h : jHi ≤ jLo) : boxF a b k n iLo iHi kLo kHi jLo jHi i j v = v := by
  unfold boxF
  split_ifs <;> first | rfl | (exfalso; omega)

theorem boxF_empty_k (a b : List α) (k n iLo iHi kLo kHi jLo jHi i j : Int) (v : α)
    (h : kHi ≤ kLo) : boxF a b k n iLo iHi kLo kHi jLo jHi i j v = v := by
  unfold boxF
  split_ifs
  · exact accum_empty _ v kLo kHi h
  · rfl

theorem boxCount_split_i (iLo iMid iHi kLo kHi jLo jHi i kk j : Int)
    (h1 : iLo ≤ iMid) (h2 : iMid ≤ iHi) :
    boxCount iLo iMid kLo kHi jLo jHi i kk j + boxCount iMid iHi kLo kHi jLo jHi i kk j
      = boxCount iLo iHi kLo kHi jLo jHi i kk j := by
  unfold boxCount
  split_ifs <;> omega

theorem boxCount_split_j (iLo iHi kLo kHi jLo jMid jHi i kk j : Int)
    (h1 : jLo ≤ jMid) (h2 : jMid ≤ jHi) :
    boxCount iLo iHi kLo kHi jLo jMid i kk j + boxCount iLo iHi kLo kHi jMid jHi i kk j
      = boxCount iLo iHi kLo kHi jLo jHi i kk j := by
  unfold boxCount
  split_ifs <;> omega

theorem boxCount_split_k (iLo iHi kLo kMid kHi jLo jHi i kk j : Int)
    (h1 : kLo ≤ kMid) (h2 : kMid ≤ kHi) :
    boxCount iLo iHi kLo kMid jLo jHi i kk j + boxCount iLo iHi kMid kHi jLo jHi i kk j
      = boxCount iLo iHi kLo kHi jLo jHi i kk j := by
  unfold boxCount
  split_ifs <;> omega

theorem boxCount_empty (iLo iHi kLo kHi jLo jHi i kk j : Int)
    (h : iHi ≤ iLo ∨ kHi ≤ kLo ∨ jHi ≤ jLo) :
    boxCount iLo iHi kLo kHi jLo jHi i kk j = 0 := by
  unfold boxCount
  split_ifs <;> omega

theorem Sized.sizedOfFrame {m k n : Int} {s t : Mem α} (hv : Sized m k n s)
    (h : Frame m k n s t) : Sized m k n t := by
  obtain ⟨ha, hb, hl, _, _⟩ := h
  exact ⟨by rw [ha]; exact hv.1, by rw [hb]; exact hv.2.1, by rw [hl]; exact hv.2.2⟩

theorem Sized.passes_check {m k n : Int} {s : Mem α} (hv : Sized m k n s) :
    ¬ insufficient s m k n := by
  obtain ⟨h1, h2, h3⟩ := hv
  unfold insufficient
  omega

theorem Runs.runsRefl (m k n : Int) (s : Mem α) :
    Runs m k n (fun _ _ v => v) (fun _ _ _ => 0) s s :=
  ⟨Frame.frameRefl m k n s, fun _ _ _ _ _ _ => rfl, fun _ _ _ => rfl⟩

theorem Runs.runsTrans {m k n : Int} {F1 F2 : Int → Int → α → α}
    {c1 c2 : Int → Int → Int → Nat} {s t u : Mem α}
    (h1 : Runs m k n F1 c1 s t) (h2 : Runs m k n F2 c2 t u) :
    Runs m k n (fun i j v => F2 i j (F1 i j v)) (fun i kk j => c1 i kk j + c2 i kk j) s u := by
  refine ⟨h1.1.frameTrans h2.1, ?_, ?_⟩
  · intro i j hi him hj hjn
    rw [h2.2.1 i j hi him hj hjn, h1.2.1 i j hi him hj hjn]
  · intro i kk j
    rw [h2.2.2 i kk j, h1.2.2 i kk j, Nat.add_assoc]

theorem Runs.runsCongr {m k n : Int} {F1 F2 : Int → Int → α → α}
    {c1 c2 : Int → Int → Int → Nat} {s t : Mem α} (h : Runs m k n F1 c1 s t)
    (hF : ∀ (i j : Int) (v : α), 0 ≤ i → i < m → 0 ≤ j → j < n → F1 i j v = F2 i j v)
    (hc : ∀ i kk j : Int, c1 i kk j = c2 i kk j) :
    Runs m k n F2 c2 s t := by
  refine ⟨h.1, ?_, ?_⟩
  · intro i j hi him hj hjn
    rw [h.2.1 i j hi him hj hjn, hF i j _ hi him hj hjn]
  · intro i kk j
    rw [h.2.2 i kk j, hc i kk j]

theorem count_update_log (tr : List Event) (i kk j i1 kk1 j1 : Int) (p q r : Int) :
    (tr ++ [Event.read Buf.B p, Event.read Buf.C q, Event.write Buf.C r,
        Event.update i kk j]).count (Event.update i1 kk1 j1)
      = tr.count (Event.update i1 kk1 j1) + boxCount i (i + 1) kk (kk + 1) j (j + 1) i1 kk1 j1 := by
  rw [List.count_append]
  congr 1
  unfold boxCount
  by_cases h : i1 = i ∧ kk1 = kk ∧ j1 = j
  · obtain ⟨rfl, rfl, rfl⟩ := h
    rw [if_pos (by omega)]
    simp [List.count_cons]
  · rw [if_neg (by omega)]
    have hne : ¬ (i = i1 ∧ kk = kk1 ∧ j = j1) := by omega
    simp [List.count_cons, hne]

theorem updateStmt_runs (m k n i kk j : Int) (s : Mem α) (hv : Sized m k n s)
    (hi : 0 ≤ i) (him : i < m) (hkk : 0 ≤ kk) (hkkk : kk < k) (hj : 0 ≤ j) (hjn : j < n) :
    ∃ t, updateStmt (get0 s.a (i * k + kk)) (kk * n) (i * n) i kk j s = Outcome.ok t ∧
      Runs m k n (boxF s.a s.b k n i (i + 1) kk (kk + 1) j (j + 1))
        (boxCount i (i + 1) kk (kk + 1) j (j + 1)) s t := by
  have hb0 : 0 ≤ kk * n + j := idx_nonneg hkk hj hjn
  have hb1 : kk * n + j < k * n := idx_lt hkkk hj hjn
  have hc0 : 0 ≤ i * n + j := idx_nonneg hi hj hjn
  have hc1 : i * n + j < m * n := idx_lt him hj hjn
  have hbl := hv.2.1
  have hcl := hv.2.2
  have eb := load_eq_get0 s.b (kk * n + j) hb0 (by omega)
  have ec := load_eq_get0 s.c (i * n + j) hc0 (by omega)
  refine ⟨{ s with
      c := s.c.set (i * n + j).toNat
        (get0 s.c (i * n + j) + get0 s.a (i * k + kk) * get0 s.b (kk * n + j)),
      trace := s.trace ++ [Event.read Buf.B (kk * n + j), Event.read Buf.C (i * n + j),
        Event.write Buf.C (i * n + j), Event.update i kk j] },
    by simp only [updateStmt, eb, ec], ⟨rfl, rfl, ?_, ?_, ?_⟩, ?_, ?_⟩
  · simp
  · intro p hp
    exact get0_set_ne s.c (i * n + j) p _ hc0 (by omega)
  · intro e he
    simp only [List.mem_append, List.mem_cons, List.mem_singleton, List.not_mem_nil,
      or_false] at he
    rcases he with he | he | he | he | he
    · exact Or.inl he
    · subst he; exact Or.inr ⟨hb0, hb1⟩
    · subst he; exact Or.inr ⟨hc0, hc1⟩
    · subst he; exact Or.inr ⟨hc0, hc1⟩
    · subst he; exact Or.inr ⟨⟨hi, him⟩, ⟨hkk, hkkk⟩, ⟨hj, hjn⟩⟩
  · intro i1 j1 hi1 _ hj1 hj1n
    by_cases hij : i1 = i ∧ j1 = j
    · obtain ⟨h1, h2⟩ := hij
      subst h1; subst h2
      have hw : boxF s.a s.b k n i1 (i1 + 1) kk (kk + 1) j1 (j1 + 1) i1 j1
          (get0 s.c (i1 * n + j1))
          = get0 s.c (i1 * n + j1) + get0 s.a (i1 * k + kk) * get0 s.b (kk * n + j1) := by
        unfold boxF
        rw [if_pos (by omega), accum_single]
        rfl
      show get0 (s.c.set (i1 * n + j1).toNat _) (i1 * n + j1) = _
      rw [get0_set_self s.c (i1 * n + j1) _ hc0 (by omega), hw]
    · have hne : i1 * n + j1 ≠ i * n + j := by
        intro h
        exact hij (idx_inj hj1 hj1n hj hjn h)
      have hw : boxF s.a s.b k n i (i + 1) kk (kk + 1) j (j + 1) i1 j1
          (get0 s.c (i1 * n + j1)) = get0 s.c (i1 * n + j1) := by
        unfold boxF
        rw [if_neg (by omega)]
      show get0 (s.c.set (i * n + j).toNat _) (i1 * n + j1) = _
      rw [get0_set_ne s.c (i * n + j) (i1 * n + j1) _ hc0 hne, hw]
  · intro i1 kk1 j1
    exact count_update_log s.trace i kk j i1 kk1 j1 _ _ _

theorem jLoop_runs (fuel : Nat) (m k n i kk j0 jMax : Int) (s : Mem α) (hv : Sized m k n s)
    (hi : 0 ≤ i) (him : i < m) (hkk : 0 ≤ kk) (hkkk : kk < k)
    (hj0 : 0 ≤ j0) (hjle : j0 ≤ jMax) (hjn : jMax ≤ n) (hf : n ≤ fuel) :
    ∃ t, forLoop fuel j0 jMax 1 (updateStmt (get0 s.a (i * k + kk)) (kk * n) (i * n) i kk) s
        = Outcome.ok t ∧
      Runs m k n (boxF s.a s.b k n i (i + 1) kk (kk + 1) j0 jMax)
        (boxCount i (i + 1) kk (kk + 1) j0 jMax) s t := by
  apply forLoop_inv_one
    (fun j t => Runs m k n (boxF s.a s.b k n i (i + 1) kk (kk + 1) j0 j)
      (boxCount i (i + 1) kk (kk + 1) j0 j) s t) _ j0 jMax hjle
  · intro j t hlo hhi hI
    have hvt := hv.sizedOfFrame hI.1
    obtain ⟨t1, hrun, hA⟩ := updateStmt_runs m k n i kk j t hvt hi him hkk hkkk (by omega) (by omega)
    rw [hI.1.1] at hrun hA
    rw [hI.1.2.1] at hA
    refine ⟨t1, hrun, (hI.runsTrans hA).runsCongr ?_ ?_⟩
    · intro i1 j1 v _ _ _ _
      exact boxF_split_j s.a s.b k n i (i + 1) kk (kk + 1) j0 j (j + 1) i1 j1 v hlo (by omega)
    · intro i1 kk1 j1
      exact boxCount_split_j i (i + 1) kk (kk + 1) j0 j (j + 1) i1 kk1 j1 hlo (by omega)
  · omega
  · exact (Runs.runsRefl m k n s).runsCongr
      (fun i1 j1 v _ _ _ _ =>
        (boxF_empty_j s.a s.b k n i (i + 1) kk (kk + 1) j0 j0 i1 j1 v (le_refl j0)).symm)
      (fun i1 kk1 j1 =>
        (boxCount_empty i (i + 1) kk (kk + 1) j0 j0 i1 kk1 j1 (Or.inr (Or.inr (le_refl j0)))).symm)

theorem Runs.runsLogReadA (m k n : Int) (s : Mem α) (idx : Int)
    (h0 : 0 ≤ idx) (h1 : idx < m * k) :
    Runs m k n (fun _ _ v => v) (fun _ _ _ => 0) s (s.log [Event.read Buf.A idx]) := by
  refine ⟨?_, fun _ _ _ _ _ _ => rfl, ?_⟩
  · apply Frame.log
    intro e he
    rw [List.mem_singleton] at he
    subst he
    exact ⟨h0, h1⟩
  · intro i kk j
    simp [Mem.log, List.count_cons]

theorem blockedKK_runs (fuel : Nat) (m k n i kk j0 jMax : Int) (s : Mem α) (hv : Sized m k n s)
    (hi : 0 ≤ i) (him : i < m) (hkk : 0 ≤ kk) (hkkk : kk < k)
    (hj0 : 0 ≤ j0) (hjle : j0 ≤ jMax) (hjn : jMax ≤ n) (hf : n ≤ fuel) :
    ∃ t, blockedKK fuel k n j0 jMax i kk s = Outcome.ok t ∧
      Runs m k n (boxF s.a s.b k n i (i + 1) kk (kk + 1) j0 jMax)
        (boxCount i (i + 1) kk (kk + 1) j0 jMax) s t := by
  have ha0 : 0 ≤ i * k + kk := idx_nonneg hi hkk hkkk
  have ha1 : i * k + kk < m * k := idx_lt him hkk hkkk
  have hal := hv.1
  have ea := load_eq_get0 s.a (i * k + kk) ha0 (by omega)
  have hlog := Runs.runsLogReadA m k n s (i * k + kk) ha0 ha1
  obtain ⟨t, hrun, hA⟩ := jLoop_runs fuel m k n i kk j0 jMax
    (s.log [Event.read Buf.A (i * k + kk)]) (hv.sizedOfFrame hlog.1) hi him hkk hkkk
    hj0 hjle hjn hf
  refine ⟨t, ?_, (hlog.runsTrans hA).runsCongr ?_ ?_⟩
  · simp only [blockedKK, ea]
    exact hrun
  · intro i1 j1 v _ _ _ _
    rfl
  · intro i1 kk1 j1
    exact Nat.zero_add _

theorem blockedI_runs (fuel : Nat) (m k n i k0 kMax j0 jMax : Int) (s : Mem α)
    (hv : Sized m k n s) (hi : 0 ≤ i) (him : i < m)
    (hk0 : 0 ≤ k0) (hkle : k0 ≤ kMax) (hkk : kMax ≤ k)
    (hj0 : 0 ≤ j0) (hjle : j0 ≤ jMax) (hjn : jMax ≤ n) (hfk : k ≤ fuel) (hf : n ≤ fuel) :
    ∃ t, blockedI fuel k n j0 jMax k0 kMax i s = Outcome.ok t ∧
      Runs m k n (boxF s.a s.b k n i (i + 1) k0 kMax j0 jMax)
        (boxCount i (i + 1) k0 kMax j0 jMax) s t := by
  apply forLoop_inv_one
    (fun kk t => Runs m k n (boxF s.a s.b k n i (i + 1) k0 kk j0 jMax)
      (boxCount i (i + 1) k0 kk j0 jMax) s t) _ k0 kMax hkle
  · intro kk t hlo hhi hI
    obtain ⟨t1, hrun, hA⟩ := blockedKK_runs fuel m k n i kk j0 jMax t (hv.sizedOfFrame hI.1)
      hi him (by omega) (by omega) hj0 hjle hjn hf
    rw [hI.1.1, hI.1.2.1] at hA
    refine ⟨t1, hrun, (hI.runsTrans hA).runsCongr ?_ ?_⟩
    · intro i1 j1 v _ _ _ _
      exact boxF_split_k s.a s.b k n i (i + 1) k0 kk (kk + 1) j0 jMax i1 j1 v hlo (by omega)
    · intro i1 kk1 j1
      exact boxCount_split_k i (i + 1) k0 kk (kk + 1) j0 jMax i1 kk1 j1 hlo (by omega)
  · omega
  · exact (Runs.runsRefl m k n s).runsCongr
      (fun i1 j1 v _ _ _ _ =>
        (boxF_empty_k s.a s.b k n i (i + 1) k0 k0 j0 jMax i1 j1 v (le_refl k0)).symm)
      (fun i1 kk1 j1 =>
        (boxCount_empty i (i + 1) k0 k0 j0 jMax i1 kk1 j1 (Or.inr (Or.inl (le_refl k0)))).symm)

theorem tile_runs (fuel : Nat) (m k n i0 iMax k0 kMax j0 jMax : Int) (s : Mem α)
    (hv : Sized m k n s) (hi0 : 0 ≤ i0) (hile : i0 ≤ iMax) (him : iMax ≤ m)
    (hk0 : 0 ≤ k0) (hkle : k0 ≤ kMax) (hkk : kMax ≤ k)
    (hj0 : 0 ≤ j0) (hjle : j0 ≤ jMax) (hjn : jMax ≤ n)
    (hfm : m ≤ fuel) (hfk : k ≤ fuel) (hf : n ≤ fuel) :
    ∃ t, forLoop fuel i0 iMax 1 (blockedI fuel k n j0 jMax k0 kMax) s = Outcome.ok t ∧
      Runs m k n (boxF s.a s.b k n i0 iMax k0 kMax j0 jMax)
        (boxCount i0 iMax k0 kMax j0 jMax) s t := by
  apply forLoop_inv_one
    (fun i t => Runs m k n (boxF s.a s.b k n i0 i k0 kMax j0 jMax)
      (boxCount i0 i k0 kMax j0 jMax) s t) _ i0 iMax hile
  · intro i t hlo hhi hI
    obtain ⟨t1, hrun, hA⟩ := blockedI_runs fuel m k n i k0 kMax j0 jMax t
      (hv.sizedOfFrame hI.1) (by omega) (by omega) hk0 hkle hkk hj0 hjle hjn hfk hf
    rw [hI.1.1, hI.1.2.1] at hA
    refine ⟨t1, hrun, (hI.runsTrans hA).runsCongr ?_ ?_⟩
    · intro i1 j1 v _ _ _ _
      exact boxF_split_i s.a s.b k n i0 i (i + 1) k0 kMax j0 jMax i1 j1 v hlo (by omega)
    · intro i1 kk1 j1
      exact boxCount_split_i i0 i (i + 1) k0 kMax j0 jMax i1 kk1 j1 hlo (by omega)
  · omega
  · exact (Runs.runsRefl m k n s).runsCongr
      (fun i1 j1 v _ _ _ _ =>
        (boxF_empty_i s.a s.b k n i0 i0 k0 kMax j0 jMax i1 j1 v (le_refl i0)).symm)
      (fun i1 kk1 j1 =>
        (boxCount_empty i0 i0 k0 kMax j0 jMax i1 kk1 j1 (Or.inl (le_refl i0))).symm)

theorem blockedTile_runs (fuel : Nat) (m k n bs i0 j0 k0 : Int) (s : Mem α)
    (hv : Sized m k n s) (hbs : 0 < bs) (hi0 : 0 ≤ i0) (him : i0 < m)
    (hk0 : 0 ≤ k0) (hkk : k0 < k) (hj0 : 0 ≤ j0) (hjn : j0 < n)
    (hfm : m ≤ fuel) (hfk : k ≤ fuel) (hf : n ≤ fuel) :
    ∃ t, blockedTile fuel m k n bs i0 j0 k0 s = Outcome.ok t ∧
      Runs m k n
        (boxF s.a s.b k n i0 (min (i0 + bs) m) k0 (min (k0 + bs) k) j0 (min (j0 + bs) n))
        (boxCount i0 (min (i0 + bs) m) k0 (min (k0 + bs) k) j0 (min (j0 + bs) n)) s t := by
  have h1 := min_step hbs him
  have h2 := min_step hbs hkk
  have h3 := min_step hbs hjn
  exact tile_runs fuel m k n i0 _ k0 _ j0 _ s hv hi0 h1.1 h1.2.1 hk0 h2.1 h2.2.1
    hj0 h3.1 h3.2.1 hfm hfk hf

theorem min_eq_limit {y hi : Int} (h : hi ≤ y) : min y hi = hi := by
  unfold min
  split_ifs <;> omega

theorem blockedJ0_runs (fuel : Nat) (m k n bs i0 j0 : Int) (s : Mem α)
    (hv : Sized m k n s) (hbs : 0 < bs) (hi0 : 0 ≤ i0) (him : i0 < m)
    (hj0 : 0 ≤ j0) (hjn : j0 < n)
    (hfm : m ≤ fuel) (hfk : k ≤ fuel) (hf : n ≤ fuel) :
    ∃ t, blockedJ0 fuel m k n bs i0 j0 s = Outcome.ok t ∧
      Runs m k n (boxF s.a s.b k n i0 (min (i0 + bs) m) 0 k j0 (min (j0 + bs) n))
        (boxCount i0 (min (i0 + bs) m) 0 k j0 (min (j0 + bs) n)) s t := by
  obtain ⟨y, t, hrun, hy, _, _, hI⟩ := forLoop_inv
    (fun k0 t => Runs m k n
      (boxF s.a s.b k n i0 (min (i0 + bs) m) 0 (min k0 k) j0 (min (j0 + bs) n))
      (boxCount i0 (min (i0 + bs) m) 0 (min k0 k) j0 (min (j0 + bs) n)) s t)
    (blockedTile fuel m k n bs i0 j0) 0 k bs hbs
    (by
      intro k0 t hlo hhi hI
      obtain ⟨t1, hrun, hA⟩ := blockedTile_runs fuel m k n bs i0 j0 k0 t
        (hv.sizedOfFrame hI.1) hbs hi0 him hlo hhi hj0 hjn hfm hfk hf
      rw [hI.1.1, hI.1.2.1] at hA
      have hmin := min_step hbs hhi
      rw [hmin.2.2] at hI
      refine ⟨t1, hrun, (hI.runsTrans hA).runsCongr ?_ ?_⟩
      · intro i1 j1 v _ _ _ _
        exact boxF_split_k s.a s.b k n i0 _ 0 k0 _ j0 _ i1 j1 v hlo hmin.1
      · intro i1 kk1 j1
        exact boxCount_split_k i0 _ 0 k0 _ j0 _ i1 kk1 j1 hlo hmin.1)
    fuel 0 s (le_refl 0) (by omega)
    ((Runs.runsRefl m k n s).runsCongr
      (fun i1 j1 v _ _ _ _ =>
        (boxF_empty_k s.a s.b k n i0 _ 0 (min 0 k) j0 _ i1 j1 v (min_le_zero k)).symm)
      (fun i1 kk1 j1 =>
        (boxCount_empty i0 _ 0 (min 0 k) j0 _ i1 kk1 j1 (Or.inr (Or.inl (min_le_zero k)))).symm))
  rw [min_eq_limit hy] at hI
  exact ⟨t, hrun, hI⟩

theorem blockedI0_runs (fuel : Nat) (m k n bs i0 : Int) (s : Mem α)
    (hv : Sized m k n s) (hbs : 0 < bs) (hi0 : 0 ≤ i0) (him : i0 < m)
    (hfm : m ≤ fuel) (hfk : k ≤ fuel) (hf : n ≤ fuel) :
    ∃ t, blockedI0 fuel m k n bs i0 s = Outcome.ok t ∧
      Runs m k n (boxF s.a s.b k n i0 (min (i0 + bs) m) 0 k 0 n)
        (boxCount i0 (min (i0 + bs) m) 0 k 0 n) s t := by
  obtain ⟨y, t, hrun, hy, _, _, hI⟩ := forLoop_inv
    (fun j0 t => Runs m k n
      (boxF s.a s.b k n i0 (min (i0 + bs) m) 0 k 0 (min j0 n))
      (boxCount i0 (min (i0 + bs) m) 0 k 0 (min j0 n)) s t)
    (blockedJ0 fuel m k n bs i0) 0 n bs hbs
    (by
      intro j0 t hlo hhi hI
      obtain ⟨t1, hrun, hA⟩ := blockedJ0_runs fuel m k n bs i0 j0 t
        (hv.sizedOfFrame hI.1) hbs hi0 him hlo hhi hfm hfk hf
      rw [hI.1.1, hI.1.2.1] at hA
      have hmin := min_step hbs hhi
      rw [hmin.2.2] at hI
      refine ⟨t1, hrun, (hI.runsTrans hA).runsCongr ?_ ?_⟩
      · intro i1 j1 v _ _ _ _
        exact boxF_split_j s.a s.b k n i0 _ 0 k 0 j0 _ i1 j1 v hlo hmin.1
      · intro i1 kk1 j1
        exact boxCount_split_j i0 _ 0 k 0 j0 _ i1 kk1 j1 hlo hmin.1)
    fuel 0 s (le_refl 0) (by omega)
    ((Runs.runsRefl m k n s).runsCongr
      (fun i1 j1 v _ _ _ _ =>
        (boxF_empty_j s.a s.b k n i0 _ 0 k 0 (min 0 n) i1 j1 v (min_le_zero n)).symm)
      (fun i1 kk1 j1 =>
        (boxCount_empty i0 _ 0 k 0 (min 0 n) i1 kk1 j1 (Or.inr (Or.inr (min_le_zero n)))).symm))
  rw [min_eq_limit hy] at hI
  exact ⟨t, hrun, hI⟩

theorem tiles_runs (fuel : Nat) (m k n bs : Int) (s : Mem α)
    (hv : Sized m k n s) (hbs : 0 < bs)
    (hfm : m ≤ fuel) (hfk : k ≤ fuel) (hf : n ≤ fuel) :
    ∃ t, forLoop fuel 0 m bs (blockedI0 fuel m k n bs) s = Outcome.ok t ∧
      Runs m k n (boxF s.a s.b k n 0 m 0 k 0 n) (boxCount 0 m 0 k 0 n) s t := by
  obtain ⟨y, t, hrun, hy, _, _, hI⟩ := forLoop_inv
    (fun i0 t => Runs m k n (boxF s.a s.b k n 0 (min i0 m) 0 k 0 n)
      (boxCount 0 (min i0 m) 0 k 0 n) s t)
    (blockedI0 fuel m k n bs) 0 m bs hbs
    (by
      intro i0 t hlo hhi hI
      obtain ⟨t1, hrun, hA⟩ := blockedI0_runs fuel m k n bs i0 t
        (hv.sizedOfFrame hI.1) hbs hlo hhi hfm hfk hf
      rw [hI.1.1, hI.1.2.1] at hA
      have hmin := min_step hbs hhi
      rw [hmin.2.2] at hI
      refine ⟨t1, hrun, (hI.runsTrans hA).runsCongr ?_ ?_⟩
      · intro i1 j1 v _ _ _ _
        exact boxF_split_i s.a s.b k n 0 i0 _ 0 k 0 n i1 j1 v hlo hmin.1
      · intro i1 kk1 j1
        exact boxCount_split_i 0 i0 _ 0 k 0 n i1 kk1 j1 hlo hmin.1)
    fuel 0 s (le_refl 0) (by omega)
    ((Runs.runsRefl m k n s).runsCongr
      (fun i1 j1 v _ _ _ _ =>
        (boxF_empty_i s.a s.b k n 0 (min 0 m) 0 k 0 n i1 j1 v (min_le_zero m)).symm)
      (fun i1 kk1 j1 =>
        (boxCount_empty 0 (min 0 m) 0 k 0 n i1 kk1 j1 (Or.inl (min_le_zero m))).symm))
  rw [min_eq_limit hy] at hI
  exact ⟨t, hrun, hI⟩

/-- The zeroing loop only appends writes of `c` below `m*n` to the trace. -/
theorem zeroLoop_trace (fuel : Nat) (m n : Int) (s : Mem α)
    (hc : m * n ≤ (s.c.length : Int)) (hf : m * n ≤ fuel) :
    ∃ z, zeroLoop fuel m n s = Outcome.ok z ∧
      (∀ e ∈ z.trace, e ∈ s.trace ∨ ∃ p : Int, 0 ≤ p ∧ p < m * n ∧ e = Event.write Buf.C p) ∧
      (∀ e : Event, (∀ p : Int, e ≠ Event.write Buf.C p) → z.trace.count e = s.trace.count e) := by
  by_cases hmn : 0 ≤ m * n
  · obtain ⟨z, hz, _, h1, h2⟩ := forLoop_inv_one
      (fun x (t : Mem α) => t.c.length = s.c.length ∧
        (∀ e ∈ t.trace, e ∈ s.trace ∨ ∃ p : Int, 0 ≤ p ∧ p < m * n ∧ e = Event.write Buf.C p) ∧
        (∀ e : Event, (∀ p : Int, e ≠ Event.write Buf.C p) →
          t.trace.count e = s.trace.count e))
      zeroStmt 0 (m * n) hmn
      (by
        intro x t hlo hhi hI
        have hlen : x < (t.c.length : Int) := by rw [hI.1]; omega
        refine ⟨{ t with c := t.c.set x.toNat 0, trace := t.trace ++ [Event.write Buf.C x] },
          by simp only [zeroStmt, store_eq t.c x 0 hlo hlen], by simpa using hI.1, ?_, ?_⟩
        · intro e he
          simp only [List.mem_append, List.mem_singleton] at he
          rcases he with he | he
          · exact hI.2.1 e he
          · exact Or.inr ⟨x, hlo, hhi, he⟩
        · intro e hne
          show (t.trace ++ [Event.write Buf.C x]).count e = _
          rw [List.count_append, hI.2.2 e hne, List.count_singleton]
          have : (Event.write Buf.C x == e) = false := by
            simpa using fun h => hne x h.symm
          simp [this])
      fuel s (by omega) ⟨rfl, fun e he => Or.inl he, fun _ _ => rfl⟩
    exact ⟨z, hz, h1, h2⟩
  · exact ⟨s, forLoop_exit fuel 0 (m * n) 1 zeroStmt s (by omega), fun e he => Or.inl he,
      fun _ _ => rfl⟩

/-- The tiled algorithm for all integer dimensions and every positive block
size, with no law of arithmetic assumed: it returns normally, every entry of the
result is the left fold of the reference, and the update statement is executed
exactly once at every triple of the box and nowhere else. -/
theorem MatMulBlocked_runs (fuel : Nat) (m k n bs : Int) (s : Mem α)
    (hv : Sized m k n s) (hbs : 0 < bs)
    (hfz : m * n ≤ fuel) (hfm : m ≤ fuel) (hfk : k ≤ fuel) (hf : n ≤ fuel) :
    ∃ t, MatMulBlocked fuel s m k n bs = Outcome.ok t ∧ Computes m k n s t ∧
      ∀ i kk j : Int, t.trace.count (Event.update i kk j)
        = s.trace.count (Event.update i kk j) + boxCount 0 m 0 k 0 n i kk j := by
  obtain ⟨z, hz, hzf, hz0⟩ := zeroLoop_spec fuel m k n s hv.2.2 hfz
  obtain ⟨z1, hz1, _, hzc⟩ := zeroLoop_trace fuel m n s hv.2.2 hfz
  have hzz : z1 = z := Outcome.ok.inj (hz1.symm.trans hz)
  subst hzz
  obtain ⟨t, hrun, hR⟩ := tiles_runs fuel m k n bs z1 (hv.sizedOfFrame hzf) hbs hfm hfk hf
  refine ⟨t, ?_, ⟨hzf.frameTrans hR.1, ?_⟩, ?_⟩
  · simp only [MatMulBlocked, if_neg hv.passes_check, hz]
    exact hrun
  · intro i j hi him hj hjn
    rw [hR.2.1 i j hi him hj hjn, hz0 (i * n + j) (idx_nonneg hi hj hjn) (idx_lt him hj hjn),
      hzf.1, hzf.2.1]
    unfold boxF dot
    rw [if_pos ⟨hi, him, hj, hjn⟩, seg_eq_accum]
  · intro i kk j
    rw [hR.2.2 i kk j, hzc (Event.update i kk j) (fun p h => Event.noConfusion h)]

end Order

/-! ## Summation order, tiling, bounds, overwrite and spare capacity -/

section OrderClaims

variable [Zero α] [Add α] [Mul α]

/-- C12: `MatMulNaive` fixes the summation order.  With `+` and `*` arbitrary
binary operations and `0` a constant (no associativity, commutativity or
distributivity assumed), every valid call returns normally and, for `i < m` and
`j < n`, `c[i*n+j]` is exactly the left fold over `kk = 0, 1, ..., k-1` of
`acc + a[i*k+kk] * b[kk*n+j]` starting from `0`. -/
theorem MatMulNaive_summation_order (fuel : Nat) (s : Mem α) (m k n : Int)
    (hm : 0 ≤ m) (hk : 0 ≤ k) (hn : 0 ≤ n)
    (ha : m * k ≤ (s.a.length : Int)) (hb : k * n ≤ (s.b.length : Int))
    (hc : m * n ≤ (s.c.length : Int)) (hf : m * n + m + k + n ≤ (fuel : Int)) :
    ∃ t, MatMulNaive fuel s m k n = Outcome.ok t ∧
      ∀ i j : Int, 0 ≤ i → i < m → 0 ≤ j → j < n →
        load t.c (i * n + j)
          = some ((List.range k.toNat).foldl
              (fun (acc : α) (kk : Nat) =>
                acc + get0 s.a (i * k + (kk : Int)) * get0 s.b ((kk : Int) * n + j)) 0) := by
  have hv : Valid m k n s := ⟨hm, hk, hn, ha, hb, hc⟩
  obtain ⟨t, hrun, hC⟩ := MatMulNaive_computes fuel m k n s hv hf
  refine ⟨t, hrun, ?_⟩
  intro i j hi him hj hjn
  rw [hC.load_eq hv i j hi him hj hjn, dot_eq_foldDot]
  rfl

/-- C13 (as amended): the loop nest of `MatMulBlocked` differs from the
reference's, but the products `a[i*k+kk] * b[kk*n+j]` are added into any given
`c[i*n+j]` in the reference's index order `kk = 0..k-1`, each on the right of
the running value.  With `+` and `*` arbitrary operations (no law assumed),
for all valid inputs and every `blockSize > 0` both calls return normally and
every output element of `MatMulBlocked` equals that of `MatMulNaive`. -/
theorem MatMulBlocked_same_order_as_naive (fuel : Nat) (s : Mem α) (m k n blockSize : Int)
    (hm : 0 ≤ m) (hk : 0 ≤ k) (hn : 0 ≤ n)
    (ha : m * k ≤ (s.a.length : Int)) (hb : k * n ≤ (s.b.length : Int))
    (hc : m * n ≤ (s.c.length : Int)) (hbs : 0 < blockSize)
    (hf : m * n + m + k + n ≤ (fuel : Int)) :
    ∃ tB tN, MatMulBlocked fuel s m k n blockSize = Outcome.ok tB ∧
      MatMulNaive fuel s m k n = Outcome.ok tN ∧
      ∀ p : Int, 0 ≤ p → p < m * n → load tB.c p = load tN.c p ∧ (load tB.c p).isSome := by
  have hv : Valid m k n s := ⟨hm, hk, hn, ha, hb, hc⟩
  have hmn : 0 ≤ m * n := mul_nonneg hm hn
  obtain ⟨tB, hB, hCB, _⟩ := MatMulBlocked_runs fuel m k n blockSize s ⟨ha, hb, hc⟩ hbs
    (by omega) (by omega) (by omega) (by omega)
  obtain ⟨tN, hN, hCN⟩ := MatMulNaive_computes fuel m k n s hv hf
  exact ⟨tB, tN, hB, hN, fun p hp0 hp =>
    hCB.agree hCN hv hv (fun _ _ _ => rfl) (fun _ _ _ => rfl) p hp0 hp⟩

/-- C14: the clipped tiles partition the iteration space.  For `m, k, n >= 0`,
every `blockSize > 0` and buffers that pass the size check, `MatMulBlocked`
returns normally and the update `c[i*n+j] += a[i*k+kk] * b[kk*n+j]` is executed
exactly once at every triple `(i, kk, j)` of `[0,m) × [0,k) × [0,n)` and at no
triple outside that box (counted in the trace, on top of what the trace held
before the call). -/
theorem tiles_partition_iteration_space (fuel : Nat) (s : Mem α) (m k n blockSize : Int)
    (hm : 0 ≤ m) (hk : 0 ≤ k) (hn : 0 ≤ n)
    (ha : m * k ≤ (s.a.length : Int)) (hb : k * n ≤ (s.b.length : Int))
    (hc : m * n ≤ (s.c.length : Int)) (hbs : 0 < blockSize)
    (hf : m * n + m + k + n ≤ (fuel : Int)) :
    ∃ t, MatMulBlocked fuel s m k n blockSize = Outcome.ok t ∧
      ∀ i kk j : Int, t.trace.count (Event.update i kk j)
        = s.trace.count (Event.update i kk j)
          + (if (0 ≤ i ∧ i < m) ∧ (0 ≤ kk ∧ kk < k) ∧ (0 ≤ j ∧ j < n) then 1 else 0) := by
  have hmn : 0 ≤ m * n := mul_nonneg hm hn
  obtain ⟨t, hrun, _, hcnt⟩ := MatMulBlocked_runs fuel m k n blockSize s ⟨ha, hb, hc⟩ hbs
    (by omega) (by omega) (by omega) (by omega)
  exact ⟨t, hrun, hcnt⟩

/-- C4: bounds safety under the Buffer Contract.  For `m, k, n >= 0`,
`blockSize > 0` and buffers of sufficient length, `MatMulNaive` and
`MatMulBlocked` return normally (the out-of-range branch is not taken) and every
access they add to the trace, `a[i*k+kk]`, `b[kk*n+j]`, `c[i*n+j]` and the
zeroing `c[i]`, has an index inside the declared prefix: below `m*k` for `a`,
`k*n` for `b` and `m*n` for `c`. -/
theorem accesses_within_declared_prefix (fuel : Nat) (s : Mem α) (m k n blockSize : Int)
    (hm : 0 ≤ m) (hk : 0 ≤ k) (hn : 0 ≤ n)
    (ha : m * k ≤ (s.a.length : Int)) (hb : k * n ≤ (s.b.length : Int))
    (hc : m * n ≤ (s.c.length : Int)) (hbs : 0 < blockSize)
    (hf : m * n + m + k + n ≤ (fuel : Int)) :
    (∃ t, MatMulNaive fuel s m k n = Outcome.ok t ∧
      ∀ e ∈ t.trace, e ∈ s.trace ∨ InBounds m k n e) ∧
    (∃ t, MatMulBlocked fuel s m k n blockSize = Outcome.ok t ∧
      ∀ e ∈ t.trace, e ∈ s.trace ∨ InBounds m k n e) := by
  have hv : Valid m k n s := ⟨hm, hk, hn, ha, hb, hc⟩
  have hmn : 0 ≤ m * n := mul_nonneg hm hn
  obtain ⟨tB, hB, hCB, _⟩ := MatMulBlocked_runs fuel m k n blockSize s ⟨ha, hb, hc⟩ hbs
    (by omega) (by omega) (by omega) (by omega)
  obtain ⟨tN, hN, hCN⟩ := MatMulNaive_computes fuel m k n s hv hf
  exact ⟨⟨tN, hN, hCN.1.2.2.2.2⟩, ⟨tB, hB, hCB.1.2.2.2.2⟩⟩

/-- C5: full overwrite.  Two valid runs with the same `a`, `b`, `m`, `k`, `n`
(and `blockSize > 0`) but arbitrary, possibly different initial `c` return
normally and produce identical `c[0..m*n)`, for `MatMulNaive` and for
`MatMulBlocked`: the prior content of `c` never reaches the result. -/
theorem full_overwrite (fuel : Nat) (s s1 : Mem α) (m k n blockSize : Int)
    (hm : 0 ≤ m) (hk : 0 ≤ k) (hn : 0 ≤ n)
    (ha : m * k ≤ (s.a.length : Int)) (hb : k * n ≤ (s.b.length : Int))
    (hc : m * n ≤ (s.c.length : Int)) (hc1 : m * n ≤ (s1.c.length : Int))
    (hsa : s1.a = s.a) (hsb : s1.b = s.b) (hbs : 0 < blockSize)
    (hf : m * n + m + k + n ≤ (fuel : Int)) :
    (∃ t t1, MatMulNaive fuel s m k n = Outcome.ok t ∧
      MatMulNaive fuel s1 m k n = Outcome.ok t1 ∧
      ∀ p : Int, 0 ≤ p → p < m * n → load t.c p = load t1.c p ∧ (load t.c p).isSome) ∧
    (∃ t t1, MatMulBlocked fuel s m k n blockSize = Outcome.ok t ∧
      MatMulBlocked fuel s1 m k n blockSize = Outcome.ok t1 ∧
      ∀ p : Int, 0 ≤ p → p < m * n → load t.c p = load t1.c p ∧ (load t.c p).isSome) := by
  have hv : Valid m k n s := ⟨hm, hk, hn, ha, hb, hc⟩
  have hv1 : Valid m k n s1 := ⟨hm, hk, hn, by rw [hsa]; exact ha, by rw [hsb]; exact hb, hc1⟩
  have hmn : 0 ≤ m * n := mul_nonneg hm hn
  obtain ⟨tB, hB, hCB, _⟩ := MatMulBlocked_runs fuel m k n blockSize s ⟨ha, hb, hc⟩ hbs
    (by omega) (by omega) (by omega) (by omega)
  obtain ⟨tN, hN, hCN⟩ := MatMulNaive_computes fuel m k n s hv hf
  obtain ⟨uB, hB1, hCB1, _⟩ := MatMulBlocked_runs fuel m k n blockSize s1
    ⟨hv1.ha, hv1.hb, hv1.hc⟩ hbs (by omega) (by omega) (by omega) (by omega)
  obtain ⟨uN, hN1, hCN1⟩ := MatMulNaive_computes fuel m k n s1 hv1 hf
  have eqa : ∀ p : Int, 0 ≤ p → p < m * k → get0 s.a p = get0 s1.a p :=
    fun _ _ _ => by rw [hsa]
  have eqb : ∀ p : Int, 0 ≤ p → p < k * n → get0 s.b p = get0 s1.b p :=
    fun _ _ _ => by rw [hsb]
  exact ⟨⟨tN, uN, hN, hN1, fun p hp0 hp => hCN.agree hCN1 hv hv1 eqa eqb p hp0 hp⟩,
    ⟨tB, uB, hB, hB1, fun p hp0 hp => hCB.agree hCB1 hv hv1 eqa eqb p hp0 hp⟩⟩

/-- C10: extra capacity is tolerated and untouched.  For `m, k, n >= 0`,
`blockSize > 0` and buffers that may be longer than required, `MatMulNaive` and
`MatMulBlocked` return normally, (i) leave `c[p]` unchanged for every `p >= m*n`
and leave `a` and `b` unchanged, (ii) produce the same `c[0..m*n)` as the same
call on the buffers truncated to exactly `m*k`, `k*n` and `m*n` elements, and
every access they make is inside the addressed prefix. -/
theorem extra_capacity_untouched (fuel : Nat) (s : Mem α) (m k n blockSize : Int)
    (hm : 0 ≤ m) (hk : 0 ≤ k) (hn : 0 ≤ n)
    (ha : m * k ≤ (s.a.length : Int)) (hb : k * n ≤ (s.b.length : Int))
    (hc : m * n ≤ (s.c.length : Int)) (hbs : 0 < blockSize)
    (hf : m * n + m + k + n ≤ (fuel : Int)) :
    (∃ t u, MatMulNaive fuel s m k n = Outcome.ok t ∧
      MatMulNaive fuel
        ⟨s.a.take (m * k).toNat, s.b.take (k * n).toNat, s.c.take (m * n).toNat, s.trace⟩
        m k n = Outcome.ok u ∧
      t.a = s.a ∧ t.b = s.b ∧
      (∀ p : Int, m * n ≤ p → load t.c p = load s.c p) ∧
      (∀ p : Int, 0 ≤ p → p < m * n → load t.c p = load u.c p ∧ (load t.c p).isSome) ∧
      (∀ e ∈ t.trace, e ∈ s.trace ∨ InBounds m k n e)) ∧
    (∃ t u, MatMulBlocked fuel s m k n blockSize = Outcome.ok t ∧
      MatMulBlocked fuel
        ⟨s.a.take (m * k).toNat, s.b.take (k * n).toNat, s.c.take (m * n).toNat, s.trace⟩
        m k n blockSize = Outcome.ok u ∧
      t.a = s.a ∧ t.b = s.b ∧
      (∀ p : Int, m * n ≤ p → load t.c p = load s.c p) ∧
      (∀ p : Int, 0 ≤ p → p < m * n → load t.c p = load u.c p ∧ (load t.c p).isSome) ∧
      (∀ e ∈ t.trace, e ∈ s.trace ∨ InBounds m k n e)) := by
  have hv : Valid m k n s := ⟨hm, hk, hn, ha, hb, hc⟩
  have hv1 : Valid m k n
      ⟨s.a.take (m * k).toNat, s.b.take (k * n).toNat, s.c.take (m * n).toNat, s.trace⟩ :=
    ⟨hm, hk, hn, length_take_ge s.a _ ha, length_take_ge s.b _ hb, length_take_ge s.c _ hc⟩
  have eqa : ∀ p : Int, 0 ≤ p → p < m * k → get0 s.a p = get0 (s.a.take (m * k).toNat) p :=
    fun p _ hp => (get0_take s.a (m * k) p hp).symm
  have eqb : ∀ p : Int, 0 ≤ p → p < k * n → get0 s.b p = get0 (s.b.take (k * n).toNat) p :=
    fun p _ hp => (get0_take s.b (k * n) p hp).symm
  have hmn : 0 ≤ m * n := mul_nonneg hm hn
  obtain ⟨tB, hB, hCB, _⟩ := MatMulBlocked_runs fuel m k n blockSize s ⟨ha, hb, hc⟩ hbs
    (by omega) (by omega) (by omega) (by omega)
  obtain ⟨tN, hN, hCN⟩ := MatMulNaive_computes fuel m k n s hv hf
  obtain ⟨uB, hB1, hCB1, _⟩ := MatMulBlocked_runs fuel m k n blockSize _
    ⟨hv1.ha, hv1.hb, hv1.hc⟩ hbs (by omega) (by omega) (by omega) (by omega)
  obtain ⟨uN, hN1, hCN1⟩ := MatMulNaive_computes fuel m k n _ hv1 hf
  exact ⟨⟨tN, uN, hN, hN1, hCN.1.1, hCN.1.2.1, fun p hp => hCN.1.load_tail p hp,
      fun p hp0 hp => hCN.agree hCN1 hv hv1 eqa eqb p hp0 hp, hCN.1.2.2.2.2⟩,
    ⟨tB, uB, hB, hB1, hCB.1.1, hCB.1.2.1, fun p hp => hCB.1.load_tail p hp,
      fun p hp0 hp => hCB.agree hCB1 hv hv1 eqa eqb p hp0 hp, hCB.1.2.2.2.2⟩⟩

end OrderClaims

/-- Witness for C4: the `4 × 4 × 4` scenario with block size `3`, started with an
empty trace. -/
theorem accesses_within_declared_prefix_witness :
    (∃ t, MatMulNaive 28 mem4 4 4 4 = Outcome.ok t ∧
      ∀ e ∈ t.trace, e ∈ mem4.trace ∨ InBounds 4 4 4 e) ∧
    (∃ t, MatMulBlocked 28 mem4 4 4 4 3 = Outcome.ok t ∧
      ∀ e ∈ t.trace, e ∈ mem4.trace ∨ InBounds 4 4 4 e) :=
  accesses_within_declared_prefix 28 mem4 4 4 4 3
    (by decide) (by decide) (by decide) (by decide) (by decide) (by decide) (by decide)
    (by decide)

/-- Witness for C5: the `4 × 4 × 4` scenario run from two different stale
contents of `c`. -/
theorem full_overwrite_witness :
    (∃ t t1, MatMulNaive 28 mem4 4 4 4 = Outcome.ok t ∧
      MatMulNaive 28 mem4stale 4 4 4 = Outcome.ok t1 ∧
      ∀ p : Int, 0 ≤ p → p < 4 * 4 → load t.c p = load t1.c p ∧ (load t.c p).isSome) ∧
    (∃ t t1, MatMulBlocked 28 mem4 4 4 4 3 = Outcome.ok t ∧
      MatMulBlocked 28 mem4stale 4 4 4 3 = Outcome.ok t1 ∧
      ∀ p : Int, 0 ≤ p → p < 4 * 4 → load t.c p = load t1.c p ∧ (load t.c p).isSome) :=
  full_overwrite 28 mem4 mem4stale 4 4 4 3
    (by decide) (by decide) (by decide) (by decide) (by decide) (by decide) (by decide)
    rfl rfl (by decide) (by decide)

/-- Witness for C10: the `4 × 4 × 4` scenario in buffers with spare capacity,
with block size `3`; in particular the three spare elements of `c` survive. -/
theorem extra_capacity_untouched_witness :
    ∃ t, MatMulBlocked 28 mem4spare 4 4 4 3 = Outcome.ok t ∧
      t.a = mem4spare.a ∧ t.b = mem4spare.b ∧
      load t.c 16 = some 41 ∧ load t.c 17 = some 42 ∧ load t.c 18 = some 43 := by
  obtain ⟨_, t, u, hrun, _, hta, htb, htail, _, _⟩ :=
    extra_capacity_untouched 28 mem4spare 4 4 4 3
      (by decide) (by decide) (by decide) (by decide) (by decide) (by decide) (by decide)
      (by decide)
  exact ⟨t, hrun, hta, htb, (htail 16 (by decide)).trans (by decide),
    (htail 17 (by decide)).trans (by decide), (htail 18 (by decide)).trans (by decide)⟩


/-- Witness for C12: a `1 × 3` row times a `3 × 1` column of formal expressions
gives `((0 + x0*y0) + x1*y1) + x2*y2`, parenthesised exactly so. -/
theorem MatMulNaive_summation_order_witness :
    ∃ t, MatMulNaive 6 memSymRow 1 3 1 = Outcome.ok t ∧
      load t.c 0 = some
        (Sym.add (Sym.add (Sym.add Sym.zero (Sym.mul (Sym.x 0) (Sym.y 0)))
          (Sym.mul (Sym.x 1) (Sym.y 1))) (Sym.mul (Sym.x 2) (Sym.y 2))) := by
  obtain ⟨t, hrun, h⟩ := MatMulNaive_summation_order 6 memSymRow 1 3 1
    (by decide) (by decide) (by decide) (by decide) (by decide) (by decide) (by decide)
  exact ⟨t, hrun, (h 0 0 (by decide) (by decide) (by decide) (by decide)).trans rfl⟩

/-- Counterexample to C13 as stated: there are no operations, valid inputs and
positive block size for which an output element of `MatMulBlocked` differs from
that of `MatMulNaive`. -/
theorem MatMulBlocked_never_differs_from_naive :
    ¬ ∃ (β : Type) (_ : Zero β) (_ : Add β) (_ : Mul β) (fuel : Nat) (s : Mem β)
        (m k n blockSize : Int) (tB tN : Mem β) (p : Int),
      0 ≤ m ∧ 0 ≤ k ∧ 0 ≤ n ∧ Sized m k n s ∧ 0 < blockSize ∧
      m * n + m + k + n ≤ (fuel : Int) ∧
      MatMulBlocked fuel s m k n blockSize = Outcome.ok tB ∧
      MatMulNaive fuel s m k n = Outcome.ok tN ∧
      0 ≤ p ∧ p < m * n ∧ load tB.c p ≠ load tN.c p := by
  rintro ⟨β, iz, ia, im, fuel, s, m, k, n, bs, tB, tN, p, hm, hk, hn, hs, hbs, hf, hB, hN,
    hp0, hp, hne⟩
  have hv : Valid m k n s := ⟨hm, hk, hn, hs.1, hs.2.1, hs.2.2⟩
  have hmn : 0 ≤ m * n := mul_nonneg hm hn
  obtain ⟨uB, hB1, hCB, _⟩ := MatMulBlocked_runs fuel m k n bs s hs hbs
    (by omega) (by omega) (by omega) (by omega)
  obtain ⟨uN, hN1, hCN⟩ := MatMulNaive_computes fuel m k n s hv hf
  have e1 : uB = tB := Outcome.ok.inj (hB1.symm.trans hB)
  have e2 : uN = tN := Outcome.ok.inj (hN1.symm.trans hN)
  subst e1; subst e2
  exact hne (hCB.agree hCN hv hv (fun _ _ _ => rfl) (fun _ _ _ => rfl) p hp0 hp).1

/-- Witness for C13 (as amended): a `2 × 3` by `3 × 2` product of formal
expressions with block size `2`, which splits the `kk` range into two tiles. -/
theorem MatMulBlocked_same_order_as_naive_witness :
    ∃ tB tN, MatMulBlocked 11 memSym 2 3 2 2 = Outcome.ok tB ∧
      MatMulNaive 11 memSym 2 3 2 = Outcome.ok tN ∧
      ∀ p : Int, 0 ≤ p → p < 2 * 2 → load tB.c p = load tN.c p ∧ (load tB.c p).isSome :=
  MatMulBlocked_same_order_as_naive 11 memSym 2 3 2 2
    (by decide) (by decide) (by decide) (by decide) (by decide) (by decide) (by decide)
    (by decide)

/-- Witness for C14: on the `2 × 3 × 2` scenario with block size `2` the update
at `(1, 2, 1)` is executed once and the update at `(2, 0, 0)` never. -/
theorem tiles_partition_iteration_space_witness :
    ∃ t, MatMulBlocked 11 memSym 2 3 2 2 = Outcome.ok t ∧
      t.trace.count (Event.update 1 2 1) = 1 ∧ t.trace.count (Event.update 2 0 0) = 0 := by
  obtain ⟨t, hrun, h⟩ := tiles_partition_iteration_space 11 memSym 2 3 2 2
    (by decide) (by decide) (by decide) (by decide) (by decide) (by decide) (by decide)
    (by decide)
  exact ⟨t, hrun, (h 1 2 1).trans (by decide), (h 2 0 0).trans (by decide)⟩

/-- C15: under 64-bit machine arithmetic the size check does not prevent an
out-of-range index after a partial write.  With `m = n = 2^32`, `k = 0` (all
non-negative and representable) the product `m*n` wraps to `0`, so one element
of `c` and empty `a`, `b` pass the check; `MatMulNaive` then stores `c[0] = 0`
and panics with an index out of range at `c[1]`, for every iteration budget of
at least two. -/
theorem MatMulNaive64_overflow_partial_write :
    wrap64 4294967296 = 4294967296 ∧ wrap64 (4294967296 * 4294967296) = 0 ∧
    ¬ insufficient64 memOverflow 4294967296 0 4294967296 ∧
    ∀ fuel : Nat, MatMulNaive64 (fuel + 2) memOverflow 4294967296 0 4294967296
      = Outcome.panic PanicKind.indexOutOfRange ⟨[], [], [0], [Event.write Buf.C 0]⟩ :=
  ⟨by decide, by decide, by decide, fun _ => rfl⟩

/-! ## Machine arithmetic: wrapping counters and the size check as computed -/

section Machine

variable [Zero α] [Add α] [Mul α]

theorem wrap64_eq {x : Int} (h : IsInt64 x) : wrap64 x = x := by
  unfold IsInt64 at h
  unfold wrap64
  omega

theorem forLoop64_exit {β : Type} (fuel : Nat) (i hi step : Int) (body : Int → β → Outcome β)
    (s : β) (h : hi ≤ i) : forLoop64 fuel i hi step body s = Outcome.ok s := by
  cases fuel <;> simp [forLoop64, not_lt.mpr h]

theorem forLoop64_step {β : Type} (fuel : Nat) (i hi step : Int) (body : Int → β → Outcome β)
    (s s1 : β) (h : i < hi) (hb : body i s = Outcome.ok s1) :
    forLoop64 (fuel + 1) i hi step body s
      = forLoop64 fuel (wrap64 (i + step)) hi step body s1 := by
  simp [forLoop64, h, hb]

theorem forLoop64_once {β : Type} (fuel : Nat) (i hi step : Int) (body : Int → β → Outcome β)
    (s s1 : β) (h : i < hi) (hb : body i s = Outcome.ok s1) (hnext : hi ≤ wrap64 (i + step)) :
    forLoop64 (fuel + 1) i hi step body s = Outcome.ok s1 := by
  rw [forLoop64_step fuel i hi step body s s1 h hb]
  exact forLoop64_exit fuel _ hi step body s1 hnext

/-- A wrapping counter that stays inside a set of values below the limit, with
a body that leaves the state alone (or runs out of fuel itself), exhausts every
budget. -/
theorem forLoop64_cycle {β : Type} (P : Int → Prop) (body : Int → β → Outcome β)
    (hi step : Int) (s : β)
    (h : ∀ i : Int, P i → i < hi ∧
      (body i s = Outcome.ok s ∨ body i s = Outcome.timeout s) ∧ P (wrap64 (i + step))) :
    ∀ (fuel : Nat) (i : Int), P i → forLoop64 fuel i hi step body s = Outcome.timeout s := by
  intro fuel
  induction fuel with
  | zero => intro i hP; simp [forLoop64, (h i hP).1]
  | succ fuel ih =>
    intro i hP
    obtain ⟨hlt, hb, hnext⟩ := h i hP
    rcases hb with hb | hb
    · rw [forLoop64_step fuel i hi step body s s hlt hb]
      exact ih _ hnext
    · simp [forLoop64, hlt, hb]

theorem forLoop_noViolation {β : Type} (body : Int → β → Outcome β) (hi step : Int)
    (hb : ∀ (i : Int) (s : β), NoViolation (body i s)) :
    ∀ (fuel : Nat) (i : Int) (s : β), NoViolation (forLoop fuel i hi step body s) := by
  intro fuel
  induction fuel with
  | zero =>
    intro i s t
    by_cases h : i < hi <;> simp [forLoop, h]
  | succ fuel ih =>
    intro i s t
    by_cases h : i < hi
    · cases hbody : body i s with
      | ok s1 =>
        rw [forLoop_step fuel i hi step body s s1 h hbody]
        exact ih _ s1 t
      | panic e s1 =>
        have := hb i s
        rw [hbody] at this
        simpa [forLoop, h, hbody] using this t
      | timeout s1 => simp [forLoop, h, hbody]
    · simp [forLoop, h]

theorem forLoop64_noViolation {β : Type} (body : Int → β → Outcome β) (hi step : Int)
    (hb : ∀ (i : Int) (s : β), NoViolation (body i s)) :
    ∀ (fuel : Nat) (i : Int) (s : β), NoViolation (forLoop64 fuel i hi step body s) := by
  intro fuel
  induction fuel with
  | zero =>
    intro i s t
    by_cases h : i < hi <;> simp [forLoop64, h]
  | succ fuel ih =>
    intro i s t
    by_cases h : i < hi
    · cases hbody : body i s with
      | ok s1 =>
        rw [forLoop64_step fuel i hi step body s s1 h hbody]
        exact ih _ s1 t
      | panic e s1 =>
        have := hb i s
        rw [hbody] at this
        simpa [forLoop64, h, hbody] using this t
      | timeout s1 => simp [forLoop64, h, hbody]
    · simp [forLoop64, h]

theorem zeroStmt_noViolation (i : Int) (s : Mem α) : NoViolation (zeroStmt i s) := by
  intro t
  unfold zeroStmt
  split <;> simp

theorem updateStmt64_noViolation (aik : α) (bRowStart cRowStart i kk j : Int) (s : Mem α) :
    NoViolation (updateStmt64 aik bRowStart cRowStart i kk j s) := by
  intro t
  unfold updateStmt64
  split <;> simp

theorem blockedKK64_noViolation (fuel : Nat) (k n j0 jMax i kk : Int) (s : Mem α) :
    NoViolation (blockedKK64 fuel k n j0 jMax i kk s) := by
  unfold blockedKK64
  split
  · exact forLoop_noViolation _ jMax 1 (fun j t => updateStmt64_noViolation _ _ _ i kk j t) fuel _ _
  · intro t; simp

theorem blockedI064_noViolation (fuel : Nat) (m k n bs i0 : Int) (s : Mem α) :
    NoViolation (blockedI064 fuel m k n bs i0 s) := by
  apply forLoop64_noViolation
  intro j0 s1
  apply forLoop64_noViolation
  intro k0 s2
  apply forLoop_noViolation
  intro i s3
  apply forLoop_noViolation
  intro kk s4
  exact blockedKK64_noViolation fuel k n _ _ i kk s4

/-- Past the size check `MatMulBlocked64` never raises the Precondition
Violation, whatever the block size. -/
theorem MatMulBlocked64_noViolation (fuel : Nat) (s : Mem α) (m k n bs : Int)
    (hins : ¬ insufficient64 s m k n) : NoViolation (MatMulBlocked64 fuel s m k n bs) := by
  intro t
  have hz := forLoop_noViolation zeroStmt (wrap64 (m * n)) 1 zeroStmt_noViolation fuel 0 s
  simp only [MatMulBlocked64, if_neg hins]
  cases hzero : forLoop fuel 0 (wrap64 (m * n)) 1 zeroStmt s with
  | ok s1 =>
    exact forLoop64_noViolation _ m bs (fun i0 s2 => blockedI064_noViolation fuel m k n bs i0 s2)
      fuel 0 s1 t
  | panic e s1 =>
    rw [hzero] at hz
    simpa using hz t
  | timeout s1 => simp

/-- When the size check as the code computes it finds a buffer short, every entry
point panics before anything else and the memory is the memory of the call. -/
theorem size_check_fires (fuel : Nat) (s : Mem α) (m k n bs : Int)
    (h : insufficient64 s m k n) :
    MatMulNaive64 fuel s m k n = Outcome.panic PanicKind.insufficientBuffer s ∧
    MatMulBlocked64 fuel s m k n bs = Outcome.panic PanicKind.insufficientBuffer s ∧
    ∀ kernel : Mem α → Int → Int → Int → Outcome (Mem α),
      MatMul kernel s m k n = Outcome.panic PanicKind.insufficientBuffer s :=
  ⟨by simp only [MatMulNaive64, if_pos h], by simp only [MatMulBlocked64, if_pos h],
    fun kernel => by simp only [MatMul, if_pos h]⟩

/-- When the size check as the code computes it passes, `MatMul` is its kernel. -/
theorem size_check_passes (kernel : Mem α → Int → Int → Int → Outcome (Mem α))
    (s : Mem α) (m k n : Int) (h : ¬ insufficient64 s m k n) :
    MatMul kernel s m k n = kernel s m k n := by
  simp only [MatMul, if_neg h]

end Machine

/-! ## The two readings of `int` agree where nothing overflows -/

section Bridge

variable [Zero α] [Add α] [Mul α]

theorem forLoop_congr {β : Type} (body1 body2 : Int → β → Outcome β) (lo hi step : Int)
    (hstep : 0 ≤ step)
    (h : ∀ i : Int, lo ≤ i → i < hi → ∀ s : β, body1 i s = body2 i s) :
    ∀ (fuel : Nat) (x : Int) (s : β), lo ≤ x →
      forLoop fuel x hi step body1 s = forLoop fuel x hi step body2 s := by
  intro fuel
  induction fuel with
  | zero => intro x s _; rfl
  | succ fuel ih =>
    intro x s hx
    by_cases hlt : x < hi
    · have hb := h x hx hlt s
      simp only [forLoop, if_pos hlt, hb]
      cases body2 x s with
      | ok s1 => exact ih (x + step) s1 (by omega)
      | panic e s1 => rfl
      | timeout s1 => rfl
    · simp only [forLoop, if_neg hlt]

/-- A wrapping loop is the exact loop when its counter cannot leave the 64-bit
range: the start is representable and `hi + step` does not exceed `2^63`. -/
theorem forLoop64_eq_exact {β : Type} (body1 body2 : Int → β → Outcome β) (lo hi step : Int)
    (hstep : 0 ≤ step) (hlo : -9223372036854775808 ≤ lo)
    (hhi : hi + step ≤ 9223372036854775808)
    (h : ∀ i : Int, lo ≤ i → i < hi → ∀ s : β, body1 i s = body2 i s) :
    ∀ (fuel : Nat) (x : Int) (s : β), lo ≤ x →
      forLoop64 fuel x hi step body1 s = forLoop fuel x hi step body2 s := by
  intro fuel
  induction fuel with
  | zero => intro x s _; rfl
  | succ fuel ih =>
    intro x s hx
    by_cases hlt : x < hi
    · have hb := h x hx hlt s
      have hw : wrap64 (x + step) = x + step := wrap64_eq ⟨by omega, by omega⟩
      simp only [forLoop64, forLoop, if_pos hlt, hb, hw]
      cases body2 x s with
      | ok s1 => exact ih (x + step) s1 (by omega)
      | panic e s1 => rfl
      | timeout s1 => rfl
    · simp only [forLoop64, forLoop, if_neg hlt]

/-- A row-major index inside an `m × n` box with `m*n` below `2^63` is computed
without overflow. -/
theorem idx64_eq {i m n j : Int} (hi : 0 ≤ i) (him : i < m) (hj : 0 ≤ j) (hjn : j < n)
    (hmn : m * n ≤ 9223372036854775808) :
    wrap64 (i * n) = i * n ∧ wrap64 (wrap64 (i * n) + j) = i * n + j := by
  have h0 : 0 ≤ i * n := mul_nonneg hi (by omega)
  have h1 : i * n + j < m * n := idx_lt him hj hjn
  have e1 : wrap64 (i * n) = i * n := wrap64_eq ⟨by omega, by omega⟩
  rw [e1]
  exact ⟨rfl, wrap64_eq ⟨by omega, by omega⟩⟩

theorem insufficient64_iff (s : Mem α) (m k n : Int)
    (hmk : IsInt64 (m * k)) (hkn : IsInt64 (k * n)) (hmn : IsInt64 (m * n)) :
    insufficient64 s m k n ↔ insufficient s m k n := by
  unfold insufficient64 insufficient
  rw [wrap64_eq hmk, wrap64_eq hkn, wrap64_eq hmn]

theorem naiveCell64_eq_exact (fuel : Nat) (m k n i j : Int) (s : Mem α)
    (hi : 0 ≤ i) (him : i < m) (hj : 0 ≤ j) (hjn : j < n)
    (hmk : m * k ≤ 9223372036854775808) (hkn : k * n ≤ 9223372036854775808)
    (hmn : m * n ≤ 9223372036854775808) :
    naiveCell64 fuel k n i j s = naiveCell fuel k n i j s := by
  have hloop : forLoop fuel 0 k 1 (naiveStmt64 k n i j) (s, 0)
      = forLoop fuel 0 k 1 (naiveStmt k n i j) (s, 0) := by
    apply forLoop_congr _ _ 0 k 1 (by omega) _ fuel 0 (s, 0) (le_refl 0)
    intro kk hkk0 hkkk st
    unfold naiveStmt64 naiveStmt
    rw [(idx64_eq hi him hkk0 hkkk hmk).2, (idx64_eq hkk0 hkkk hj hjn hkn).2]
  unfold naiveCell64 naiveCell
  rw [hloop, (idx64_eq hi him hj hjn hmn).2]

/-- The reference algorithm: the machine reading is the exact reading for
non-negative dimensions whose products `m*k`, `k*n`, `m*n` stay below `2^63`. -/
theorem MatMulNaive64_eq_exact (fuel : Nat) (s : Mem α) (m k n : Int)
    (hm : 0 ≤ m) (hk : 0 ≤ k) (hn : 0 ≤ n)
    (hmk : m * k < 9223372036854775808) (hkn : k * n < 9223372036854775808)
    (hmn : m * n < 9223372036854775808) :
    MatMulNaive64 fuel s m k n = MatMulNaive fuel s m k n := by
  have p1 : 0 ≤ m * k := mul_nonneg hm hk
  have p2 : 0 ≤ k * n := mul_nonneg hk hn
  have p3 : 0 ≤ m * n := mul_nonneg hm hn
  have e3 : wrap64 (m * n) = m * n := wrap64_eq ⟨by omega, by omega⟩
  have hiff := insufficient64_iff s m k n ⟨by omega, hmk⟩ ⟨by omega, hkn⟩ ⟨by omega, hmn⟩
  have hrows : ∀ s1 : Mem α, forLoop fuel 0 m 1 (naiveRow64 fuel k n) s1
      = forLoop fuel 0 m 1 (naiveRow fuel k n) s1 := by
    intro s1
    apply forLoop_congr _ _ 0 m 1 (by omega) _ fuel 0 s1 (le_refl 0)
    intro i hi him s2
    unfold naiveRow64 naiveRow
    apply forLoop_congr _ _ 0 n 1 (by omega) _ fuel 0 s2 (le_refl 0)
    intro j hj hjn s3
    exact naiveCell64_eq_exact fuel m k n i j s3 hi him hj hjn (by omega) (by omega) (by omega)
  by_cases hins : insufficient s m k n
  · simp only [MatMulNaive64, MatMulNaive, if_pos hins, if_pos (hiff.mpr hins)]
  · have hins64 : ¬ insufficient64 s m k n := fun h => hins (hiff.mp h)
    simp only [MatMulNaive64, MatMulNaive, zeroLoop, if_neg hins, if_neg hins64, e3]
    cases forLoop fuel 0 (m * n) 1 zeroStmt s with
    | ok s1 => exact hrows s1
    | panic e s1 => rfl
    | timeout s1 => rfl

theorem min_le_limit (x y : Int) : min x y ≤ y := by
  unfold min
  split_ifs <;> omega

theorem blockedKK64_eq_exact (fuel : Nat) (m k n j0 jMax i kk : Int) (s : Mem α)
    (hi : 0 ≤ i) (him : i < m) (hkk : 0 ≤ kk) (hkkk : kk < k) (hj0 : 0 ≤ j0) (hjn : jMax ≤ n)
    (hmk : m * k ≤ 9223372036854775808) (hkn : k * n ≤ 9223372036854775808)
    (hmn : m * n ≤ 9223372036854775808) :
    blockedKK64 fuel k n j0 jMax i kk s = blockedKK fuel k n j0 jMax i kk s := by
  have hloop : ∀ (aik : α) (s1 : Mem α),
      forLoop fuel j0 jMax 1 (updateStmt64 aik (wrap64 (kk * n)) (wrap64 (i * n)) i kk) s1
        = forLoop fuel j0 jMax 1 (updateStmt aik (kk * n) (i * n) i kk) s1 := by
    intro aik s1
    apply forLoop_congr _ _ j0 jMax 1 (by omega) _ fuel j0 s1 (le_refl j0)
    intro j hj hjlt s2
    unfold updateStmt64 updateStmt
    rw [(idx64_eq hkk hkkk (by omega : 0 ≤ j) (by omega : j < n) hkn).2,
      (idx64_eq hi him (by omega : 0 ≤ j) (by omega : j < n) hmn).2]
  unfold blockedKK64 blockedKK
  rw [(idx64_eq hi him hkk hkkk hmk).2]
  cases load s.a (i * k + kk) with
  | none => rfl
  | some aik => exact hloop aik _

/-- The tiled algorithm: the machine reading is the exact reading for
non-negative dimensions whose products stay below `2^63` and a positive block
size with `m + blockSize`, `k + blockSize`, `n + blockSize` at most `2^63`, so
that no tile counter overflows. -/
theorem MatMulBlocked64_eq_exact (fuel : Nat) (s : Mem α) (m k n blockSize : Int)
    (hm : 0 ≤ m) (hk : 0 ≤ k) (hn : 0 ≤ n) (hbs : 0 < blockSize)
    (hmk : m * k < 9223372036854775808) (hkn : k * n < 9223372036854775808)
    (hmn : m * n < 9223372036854775808)
    (hmb : m + blockSize ≤ 9223372036854775808) (hkb : k + blockSize ≤ 9223372036854775808)
    (hnb : n + blockSize ≤ 9223372036854775808) :
    MatMulBlocked64 fuel s m k n blockSize = MatMulBlocked fuel s m k n blockSize := by
  have p1 : 0 ≤ m * k := mul_nonneg hm hk
  have p2 : 0 ≤ k * n := mul_nonneg hk hn
  have p3 : 0 ≤ m * n := mul_nonneg hm hn
  have e3 : wrap64 (m * n) = m * n := wrap64_eq ⟨by omega, by omega⟩
  have hiff := insufficient64_iff s m k n ⟨by omega, hmk⟩ ⟨by omega, hkn⟩ ⟨by omega, hmn⟩
  have htile : ∀ i0 j0 k0 : Int, 0 ≤ i0 → i0 < m → 0 ≤ j0 → j0 < n → 0 ≤ k0 → k0 < k →
      ∀ s1 : Mem α, blockedTile64 fuel m k n blockSize i0 j0 k0 s1
        = blockedTile fuel m k n blockSize i0 j0 k0 s1 := by
    intro i0 j0 k0 hi0 him0 hj0 hjn0 hk0 hkk0 s1
    have w1 : wrap64 (i0 + blockSize) = i0 + blockSize := wrap64_eq ⟨by omega, by omega⟩
    have w2 : wrap64 (j0 + blockSize) = j0 + blockSize := wrap64_eq ⟨by omega, by omega⟩
    have w3 : wrap64 (k0 + blockSize) = k0 + blockSize := wrap64_eq ⟨by omega, by omega⟩
    unfold blockedTile64 blockedTile
    simp only [w1, w2, w3]
    have hiM := min_le_limit (i0 + blockSize) m
    have hjM := min_le_limit (j0 + blockSize) n
    have hkM := min_le_limit (k0 + blockSize) k
    apply forLoop_congr _ _ i0 _ 1 (by omega) _ fuel i0 s1 (le_refl i0)
    intro i hi hilt s2
    unfold blockedI64 blockedI
    apply forLoop_congr _ _ k0 _ 1 (by omega) _ fuel k0 s2 (le_refl k0)
    intro kk hkk hkklt s3
    exact blockedKK64_eq_exact fuel m k n j0 _ i kk s3 (by omega) (by omega) (by omega)
      (by omega) hj0 hjM (by omega) (by omega) (by omega)
  have hJ : ∀ i0 j0 : Int, 0 ≤ i0 → i0 < m → 0 ≤ j0 → j0 < n → ∀ s1 : Mem α,
      blockedJ064 fuel m k n blockSize i0 j0 s1 = blockedJ0 fuel m k n blockSize i0 j0 s1 := by
    intro i0 j0 hi0 him0 hj0 hjn0 s1
    exact forLoop64_eq_exact _ _ 0 k blockSize (by omega) (by omega) hkb
      (fun k0 hk0 hkk0 s2 => htile i0 j0 k0 hi0 him0 hj0 hjn0 hk0 hkk0 s2) fuel 0 s1 (le_refl 0)
  have hI : ∀ i0 : Int, 0 ≤ i0 → i0 < m → ∀ s1 : Mem α,
      blockedI064 fuel m k n blockSize i0 s1 = blockedI0 fuel m k n blockSize i0 s1 := by
    intro i0 hi0 him0 s1
    exact forLoop64_eq_exact _ _ 0 n blockSize (by omega) (by omega) hnb
      (fun j0 hj0 hjn0 s2 => hJ i0 j0 hi0 him0 hj0 hjn0 s2) fuel 0 s1 (le_refl 0)
  by_cases hins : insufficient s m k n
  · simp only [MatMulBlocked64, MatMulBlocked, if_pos hins, if_pos (hiff.mpr hins)]
  · have hins64 : ¬ insufficient64 s m k n := fun h => hins (hiff.mp h)
    simp only [MatMulBlocked64, MatMulBlocked, zeroLoop, if_neg hins, if_neg hins64, e3]
    cases forLoop fuel 0 (m * n) 1 zeroStmt s with
    | ok s1 =>
      exact forLoop64_eq_exact _ _ 0 m blockSize (by omega) (by omega) hmb
        (fun i0 hi0 him0 s2 => hI i0 hi0 him0 s2) fuel 0 s1 (le_refl 0)
    | panic e s1 => rfl
    | timeout s1 => rfl

/-- Under machine arithmetic the tiled algorithm returns normally whenever no
product and no tile counter can overflow and the buffers pass the size check. -/
theorem MatMulBlocked64_returns_without_overflow (fuel : Nat) (s : Mem α)
    (m k n blockSize : Int)
    (hm : 0 ≤ m) (hk : 0 ≤ k) (hn : 0 ≤ n) (hbs : 0 < blockSize)
    (hmk : m * k < 9223372036854775808) (hkn : k * n < 9223372036854775808)
    (hmn : m * n < 9223372036854775808)
    (hmb : m + blockSize ≤ 9223372036854775808) (hkb : k + blockSize ≤ 9223372036854775808)
    (hnb : n + blockSize ≤ 9223372036854775808)
    (ha : m * k ≤ (s.a.length : Int)) (hb : k * n ≤ (s.b.length : Int))
    (hc : m * n ≤ (s.c.length : Int)) (hf : m * n + m + k + n ≤ (fuel : Int)) :
    ∃ t, MatMulBlocked64 fuel s m k n blockSize = Outcome.ok t ∧ Computes m k n s t := by
  have hmn0 : 0 ≤ m * n := mul_nonneg hm hn
  obtain ⟨t, hrun, hC, _⟩ := MatMulBlocked_runs fuel m k n blockSize s ⟨ha, hb, hc⟩ hbs
    (by omega) (by omega) (by omega) (by omega)
  refine ⟨t, ?_, hC⟩
  rw [MatMulBlocked64_eq_exact fuel s m k n blockSize hm hk hn hbs hmk hkn hmn hmb hkb hnb]
  exact hrun

end Bridge

/-! ## The claims that turn on machine arithmetic -/

section MachineClaims

variable [Zero α] [Add α] [Mul α]

/-- The zeroing loop up to a bound `N` that the buffer `c` covers. -/
theorem zeroTo_zeroFilled (fuel : Nat) (N : Int) (s : Mem α)
    (hc : N ≤ (s.c.length : Int)) (hf : N ≤ (fuel : Int)) :
    ∃ z, forLoop fuel 0 N 1 zeroStmt s = Outcome.ok z ∧ z.a = s.a ∧ z.b = s.b ∧
      (∀ p : Int, 0 ≤ p → p < N → load z.c p = some 0) ∧
      (∀ p : Int, N ≤ p → load z.c p = load s.c p) ∧
      (∀ e ∈ z.trace, e ∈ s.trace ∨ ∃ p : Int, 0 ≤ p ∧ p < N ∧ e = Event.write Buf.C p) := by
  have e1 : N * 1 = N := mul_one N
  obtain ⟨z, hz, hZ⟩ := zeroLoop_zeroFilled fuel N 1 s (by omega) (by omega)
  obtain ⟨z1, hz1, htr, _⟩ := zeroLoop_trace fuel N 1 s (by omega) (by omega)
  have hzz : z1 = z := Outcome.ok.inj (hz1.symm.trans hz)
  subst hzz
  unfold ZeroFilled at hZ
  rw [e1] at hZ htr
  refine ⟨z1, ?_, hZ.1, hZ.2.1, hZ.2.2.1, hZ.2.2.2.1, htr⟩
  have : zeroLoop fuel N 1 s = forLoop fuel 0 N 1 zeroStmt s := by
    unfold zeroLoop
    rw [e1]
  rw [← this]
  exact hz

theorem zeroTo_ok_or_timeout (fuel : Nat) (N : Int) (s : Mem α)
    (hc : N ≤ (s.c.length : Int)) :
    ∃ t, forLoop fuel 0 N 1 zeroStmt s = Outcome.ok t ∨
      forLoop fuel 0 N 1 zeroStmt s = Outcome.timeout t := by
  have e1 : N * 1 = N := mul_one N
  have h := zeroLoop_ok_or_timeout fuel N 1 s (by omega)
  unfold zeroLoop at h
  rw [e1] at h
  exact h

theorem min_zero_pos {m : Int} (hm : 0 < m) : min (wrap64 (0 + 0)) m = 0 := by
  have : wrap64 (0 + 0) = 0 := by decide
  rw [this]
  unfold min
  rw [if_pos hm]

/-- With `blockSize = 0` and `m > 0` the tile loop over `i0` exhausts every
budget without changing the memory. -/
theorem tiles64_zero_blockSize (fuel : Nat) (m k n : Int) (s : Mem α) (hm : 0 < m) :
    forLoop64 fuel 0 m 0 (blockedI064 fuel m k n 0) s = Outcome.timeout s := by
  have hw : wrap64 (0 + 0) = 0 := by decide
  have htile : blockedTile64 fuel m k n 0 0 0 0 s = Outcome.ok s := by
    unfold blockedTile64
    simp only [min_zero_pos hm]
    exact forLoop_exit fuel 0 0 1 _ s (le_refl 0)
  have hJ : blockedJ064 fuel m k n 0 0 0 s = Outcome.ok s ∨
      blockedJ064 fuel m k n 0 0 0 s = Outcome.timeout s := by
    by_cases hk : 0 < k
    · exact Or.inr (forLoop64_cycle (fun i => i = 0) _ k 0 s
        (fun i hi => by subst hi; exact ⟨hk, Or.inl htile, hw⟩) fuel 0 rfl)
    · exact Or.inl (forLoop64_exit fuel 0 k 0 _ s (by omega))
  have hI : blockedI064 fuel m k n 0 0 s = Outcome.ok s ∨
      blockedI064 fuel m k n 0 0 s = Outcome.timeout s := by
    by_cases hn : 0 < n
    · exact Or.inr (forLoop64_cycle (fun i => i = 0) _ n 0 s
        (fun i hi => by subst hi; exact ⟨hn, hJ, hw⟩) fuel 0 rfl)
    · exact Or.inl (forLoop64_exit fuel 0 n 0 _ s (by omega))
  exact forLoop64_cycle (fun i => i = 0) _ m 0 s
    (fun i hi => by subst hi; exact ⟨hm, hI, hw⟩) fuel 0 rfl

theorem MatMulBlocked64_zero_blockSize (fuel : Nat) (s : Mem α) (m k n : Int) (hm : 0 < m)
    (hins : ¬ insufficient64 s m k n) :
    ∃ t, MatMulBlocked64 fuel s m k n 0 = Outcome.timeout t := by
  have hc : wrap64 (m * n) ≤ (s.c.length : Int) := by
    unfold insufficient64 at hins
    omega
  obtain ⟨t, ht | ht⟩ := zeroTo_ok_or_timeout fuel (wrap64 (m * n)) s hc
  · refine ⟨t, ?_⟩
    simp only [MatMulBlocked64, if_neg hins, ht]
    exact tiles64_zero_blockSize fuel m k n t hm
  · refine ⟨t, ?_⟩
    simp only [MatMulBlocked64, if_neg hins, ht]

/-- C6 (as amended): `MatMulBlocked` does not check `blockSize`.  For every
`blockSize <= 0` and buffers that pass the size check, no Precondition
Violation is raised; the call goes on to the zeroing loop and the tile loops as
for any other block size.  In particular it returns normally, with `c` zeroed
below `m*n` (as computed) and nothing else touched, when `m <= 0`, and it never
returns when `blockSize = 0` and `m > 0`. -/
theorem MatMulBlocked_nonpositive_blockSize (s : Mem α) (m k n blockSize : Int)
    (hbs : blockSize ≤ 0)
    (ha : wrap64 (m * k) ≤ (s.a.length : Int)) (hb : wrap64 (k * n) ≤ (s.b.length : Int))
    (hc : wrap64 (m * n) ≤ (s.c.length : Int)) :
    (∀ (fuel : Nat) (t : Mem α),
      MatMulBlocked64 fuel s m k n blockSize ≠ Outcome.panic PanicKind.insufficientBuffer t) ∧
    (m ≤ 0 → ∀ fuel : Nat, wrap64 (m * n) ≤ (fuel : Int) →
      ∃ z, MatMulBlocked64 fuel s m k n blockSize = Outcome.ok z ∧ z.a = s.a ∧ z.b = s.b ∧
        (∀ p : Int, 0 ≤ p → p < wrap64 (m * n) → load z.c p = some 0) ∧
        (∀ p : Int, wrap64 (m * n) ≤ p → load z.c p = load s.c p)) ∧
    (blockSize = 0 → 0 < m → ∀ fuel : Nat,
      ∃ t, MatMulBlocked64 fuel s m k n blockSize = Outcome.timeout t) := by
  have _ := hbs
  have hins : ¬ insufficient64 s m k n := by unfold insufficient64; omega
  refine ⟨fun fuel t => MatMulBlocked64_noViolation fuel s m k n blockSize hins t, ?_, ?_⟩
  · intro hm fuel hf
    obtain ⟨z, hz, hza, hzb, h0, htail, _⟩ := zeroTo_zeroFilled fuel (wrap64 (m * n)) s hc hf
    refine ⟨z, ?_, hza, hzb, h0, htail⟩
    simp only [MatMulBlocked64, if_neg hins, hz]
    exact forLoop64_exit fuel 0 m blockSize _ z hm
  · intro h0 hm fuel
    subst h0
    exact MatMulBlocked64_zero_blockSize fuel s m k n hm hins

/-- C17 (as amended): negative dimensions are not rejected by the size check.
For `m < 0` and `n < 0` and every `k` such that the products `m*k`, `k*n` and
`m*n` do not overflow a 64-bit `int`, with buffers satisfying `len(a) >= m*k`,
`len(b) >= k*n` and `len(c) >= m*n` (where `m*n > 0`), `MatMulNaive` and
`MatMulBlocked` (with any block size) return normally, in the same memory:
`c[p] = 0` for `p < m*n`, every other element of `c` and all of `a` and `b`
unchanged, and the only accesses made are writes of `c` below `m*n`, so
nothing is read from `a` or `b`. -/
theorem negative_dimensions_not_rejected (fuel : Nat) (s : Mem α) (m k n blockSize : Int)
    (hm : m < 0) (hn : n < 0)
    (hmk : IsInt64 (m * k)) (hkn : IsInt64 (k * n)) (hmn : IsInt64 (m * n))
    (ha : m * k ≤ (s.a.length : Int)) (hb : k * n ≤ (s.b.length : Int))
    (hc : m * n ≤ (s.c.length : Int)) (hf : m * n ≤ (fuel : Int)) :
    0 < m * n ∧
    ∃ z, MatMulNaive64 fuel s m k n = Outcome.ok z ∧
      MatMulBlocked64 fuel s m k n blockSize = Outcome.ok z ∧
      z.a = s.a ∧ z.b = s.b ∧
      (∀ p : Int, 0 ≤ p → p < m * n → load z.c p = some 0) ∧
      (∀ p : Int, m * n ≤ p → load z.c p = load s.c p) ∧
      (∀ e ∈ z.trace, e ∈ s.trace ∨
        ∃ p : Int, 0 ≤ p ∧ p < m * n ∧ e = Event.write Buf.C p) := by
  have e1 := wrap64_eq hmk
  have e2 := wrap64_eq hkn
  have e3 := wrap64_eq hmn
  have hins : ¬ insufficient64 s m k n := by
    unfold insufficient64
    rw [e1, e2, e3]
    omega
  obtain ⟨z, hz, hza, hzb, h0, htail, htr⟩ := zeroTo_zeroFilled fuel (m * n) s hc hf
  refine ⟨mul_pos_of_neg_of_neg hm hn, z, ?_, ?_, hza, hzb, h0, htail, htr⟩
  · simp only [MatMulNaive64, if_neg hins, e3, hz]
    exact forLoop_exit fuel 0 m 1 _ z (by omega)
  · simp only [MatMulBlocked64, if_neg hins, e3, hz]
    exact forLoop64_exit fuel 0 m blockSize _ z (by omega)

end MachineClaims

/-- Counterexample to C6 as stated: with `blockSize = -1` and `m = 0` the call
returns normally, and with `blockSize = 0` on the `4 × 4 × 4` scenario it
exhausts every budget; neither call panics. -/
theorem MatMulBlocked_nonpositive_blockSize_no_panic :
    MatMulBlocked64 0 memNoRows 0 3 2 (-1) = Outcome.ok memNoRows ∧
    (∀ fuel : Nat, ∃ t, MatMulBlocked64 fuel mem4 4 4 4 0 = Outcome.timeout t) :=
  ⟨by decide, fun fuel => MatMulBlocked64_zero_blockSize fuel mem4 4 4 4 (by decide) (by decide)⟩

/-- Witness for C6 (as amended): block size `-2` without rows returns normally,
block size `0` on the `4 × 4 × 4` scenario never returns, and neither raises the
Precondition Violation. -/
theorem MatMulBlocked_nonpositive_blockSize_witness :
    (∀ (fuel : Nat) (t : Mem Int),
      MatMulBlocked64 fuel mem4 4 4 4 0 ≠ Outcome.panic PanicKind.insufficientBuffer t) ∧
    (∀ fuel : Nat, ∃ t, MatMulBlocked64 fuel mem4 4 4 4 0 = Outcome.timeout t) ∧
    (∃ z, MatMulBlocked64 0 memNoRows 0 3 2 (-2) = Outcome.ok z ∧ z.a = memNoRows.a) :=
  ⟨(MatMulBlocked_nonpositive_blockSize mem4 4 4 4 0
      (by decide) (by decide) (by decide) (by decide)).1,
   (MatMulBlocked_nonpositive_blockSize mem4 4 4 4 0
      (by decide) (by decide) (by decide) (by decide)).2.2 rfl (by decide),
   by
    obtain ⟨z, hz, hza, _⟩ := (MatMulBlocked_nonpositive_blockSize memNoRows 0 3 2 (-2)
      (by decide) (by decide) (by decide) (by decide)).2.1 (by decide) 0 (by decide)
    exact ⟨z, hz, hza⟩⟩

/-- Counterexample to C17 as stated: with `m = n = -2` and `k = 2^62 + 1` the
buffers satisfy `len(a) >= m*k`, `len(b) >= k*n` and `len(c) >= m*n`, but the
product `m*k` wraps to `2^63 - 2`, the size check fires and both functions
panic instead of returning normally. -/
theorem negative_dimensions_rejected_on_overflow :
    ((-2 : Int) * 4611686018427387905 ≤ (memNegative.a.length : Int) ∧
      (4611686018427387905 : Int) * (-2) ≤ (memNegative.b.length : Int) ∧
      (-2 : Int) * (-2) ≤ (memNegative.c.length : Int)) ∧
    wrap64 ((-2) * 4611686018427387905) = 9223372036854775806 ∧
    (∀ fuel : Nat, MatMulNaive64 fuel memNegative (-2) 4611686018427387905 (-2)
      = Outcome.panic PanicKind.insufficientBuffer memNegative) ∧
    (∀ fuel : Nat, MatMulBlocked64 fuel memNegative (-2) 4611686018427387905 (-2) 2
      = Outcome.panic PanicKind.insufficientBuffer memNegative) :=
  ⟨by decide, by decide,
    fun fuel => (size_check_fires fuel memNegative (-2) 4611686018427387905 (-2) 2
      (by decide)).1,
    fun fuel => (size_check_fires fuel memNegative (-2) 4611686018427387905 (-2) 2
      (by decide)).2.1⟩

/-- Witness for C17 (as amended): `m = -2`, `k = 3`, `n = -2` with empty `a` and
`b` and six elements in `c`: the first four are zeroed, the last two survive. -/
theorem negative_dimensions_not_rejected_witness :
    ∃ z, MatMulNaive64 4 memNegative (-2) 3 (-2) = Outcome.ok z ∧
      MatMulBlocked64 4 memNegative (-2) 3 (-2) 2 = Outcome.ok z ∧
      load z.c 3 = some 0 ∧ load z.c 4 = some 8 ∧ load z.c 5 = some 9 := by
  obtain ⟨_, z, hN, hB, _, _, h0, htail, _⟩ :=
    negative_dimensions_not_rejected 4 memNegative (-2) 3 (-2) 2
      (by decide) (by decide) (by decide) (by decide) (by decide) (by decide) (by decide)
      (by decide) (by decide)
  exact ⟨z, hN, hB, h0 3 (by decide) (by decide), (htail 4 (by decide)).trans (by decide),
    (htail 5 (by decide)).trans (by decide)⟩

/-- C3: the size check does not enforce the precondition when a product
overflows.  With `m = n = 2^32`, `k = 0` and a one-element `c`, the buffer is
shorter than `m*n = 2^64`, yet the check (whose `m*n` wraps to `0`) does not
fire: `MatMulNaive` stores `c[0] = 0` and then panics with an index out of
range, and `MatMulBlocked` (block size `2^32`) returns normally. -/
theorem precondition_not_enforced_on_overflow :
    (memOverflow.c.length : Int) < 4294967296 * 4294967296 ∧
    ¬ insufficient64 memOverflow 4294967296 0 4294967296 ∧
    (∀ fuel : Nat, MatMulNaive64 (fuel + 2) memOverflow 4294967296 0 4294967296
      = Outcome.panic PanicKind.indexOutOfRange ⟨[], [], [0], [Event.write Buf.C 0]⟩) ∧
    (∀ fuel : Nat, MatMulBlocked64 (fuel + 1) memOverflow 4294967296 0 4294967296 4294967296
      = Outcome.ok memOverflow) := by
  refine ⟨by decide, by decide, fun _ => rfl, fun fuel => ?_⟩
  have hins : ¬ insufficient64 memOverflow 4294967296 0 4294967296 := by decide
  have hw : wrap64 (4294967296 * 4294967296) = 0 := by decide
  have hJ : blockedJ064 (fuel + 1) 4294967296 0 4294967296 4294967296 0 0 memOverflow
      = Outcome.ok memOverflow := forLoop64_exit _ 0 0 _ _ memOverflow (le_refl 0)
  have hI : blockedI064 (fuel + 1) 4294967296 0 4294967296 4294967296 0 memOverflow
      = Outcome.ok memOverflow :=
    forLoop64_once fuel 0 4294967296 4294967296 _ memOverflow memOverflow (by decide) hJ
      (by decide)
  simp only [MatMulBlocked64, if_neg hins, hw,
    forLoop_exit (fuel + 1) 0 0 1 zeroStmt memOverflow (le_refl 0)]
  exact forLoop64_once fuel 0 4294967296 4294967296 _ memOverflow memOverflow (by decide) hI
    (by decide)

/-- C7: the dispatcher delegates although a buffer is too short when a product
overflows.  With `m = n = 2^32`, `k = 0` and a one-element `c`, the buffer is
shorter than `m*n = 2^64`, yet `MatMul` applies the kernel, whatever the kernel
is, because the check compares against `m*n` wrapped to `0`. -/
theorem MatMul_delegates_on_overflow :
    (memOverflow.c.length : Int) < 4294967296 * 4294967296 ∧
    ∀ kernel : Mem Int → Int → Int → Int → Outcome (Mem Int),
      MatMul kernel memOverflow 4294967296 0 4294967296
        = kernel memOverflow 4294967296 0 4294967296 :=
  ⟨by decide, fun kernel =>
    size_check_passes kernel memOverflow 4294967296 0 4294967296 (by decide)⟩

/-- C16: `MatMulBlocked` does not terminate when a tile counter overflows.  With
`m = 2^63 - 1`, `k = n = 0` and `blockSize = 2^62` (all representable, the size
check passes on any buffers) the counter `i0` takes the values `0`, `2^62`,
`-2^63`, `-2^62`, `0`, ... and never reaches `m`: every iteration budget is
exhausted. -/
theorem MatMulBlocked64_spins_on_counter_overflow :
    IsInt64 maxInt64 ∧ IsInt64 4611686018427387904 ∧
    ¬ insufficient64 memOverflow maxInt64 0 0 ∧
    ∀ fuel : Nat, MatMulBlocked64 fuel memOverflow maxInt64 0 0 4611686018427387904
      = Outcome.timeout memOverflow := by
  refine ⟨by decide, by decide, by decide, fun fuel => ?_⟩
  have hins : ¬ insufficient64 memOverflow maxInt64 0 0 := by decide
  have hw : wrap64 (maxInt64 * 0) = 0 := by decide
  simp only [MatMulBlocked64, if_neg hins, hw, forLoop_exit fuel 0 0 1 zeroStmt memOverflow
    (le_refl 0)]
  apply forLoop64_cycle
    (fun i => i = 0 ∨ i = 4611686018427387904 ∨ i = -9223372036854775808 ∨
      i = -4611686018427387904) _ maxInt64 4611686018427387904 memOverflow _ fuel 0 (Or.inl rfl)
  intro i hi
  have hbody : blockedI064 fuel maxInt64 0 0 4611686018427387904 i memOverflow
      = Outcome.ok memOverflow := forLoop64_exit fuel 0 0 _ _ memOverflow (le_refl 0)
  rcases hi with h | h | h | h <;> subst h
  · exact ⟨by decide, Or.inl hbody, Or.inr (Or.inl (by decide))⟩
  · exact ⟨by decide, Or.inl hbody, Or.inr (Or.inr (Or.inl (by decide)))⟩
  · exact ⟨by decide, Or.inl hbody, Or.inr (Or.inr (Or.inr (by decide)))⟩
  · exact ⟨by decide, Or.inl hbody, Or.inl (by decide)⟩

end Matmul
